import Mathlib

/-!
Shallow embedding of the dustsort library (Rust sources under src/rs/src) and
proofs about its specification claims.  Memory is modelled as a flat list of
elements; raw pointers become indices into that list.  Machine integers are
modelled as Nat (all the quantities involved are unsigned sizes and indices and
no arithmetic in the embedded code overflows in the Rust original, which works
with usize values bounded by the slice length).  A Rust panic is modelled as an
Option-valued result, none standing for the abort.  Loops whose termination
measure is not structural are driven by an explicit fuel argument that provably
dominates the number of iterations the Rust loop can perform.
-/

namespace Dustsort

variable {α : Type} [Inhabited α]

/-- Memory: a flat list of elements.  Pointers are indices into it. -/
abbrev Mem (α : Type) := List α

/-- Read one element (pointer dereference).  Out of range reads return the
default element; the embedded code never relies on them. -/
def rd (m : Mem α) (i : Nat) : α := m.getD i default

/-- Write one element.  Out of range writes are dropped, matching List.set. -/
def wr (m : Mem α) (i : Nat) (v : α) : Mem α := m.set i v

/-- The contiguous region of cnt elements starting at index s. -/
def seg (m : Mem α) (s cnt : Nat) : List α := (m.drop s).take cnt

/-- Generic two way select, from util.rs: conditional(a, b, is_b). -/
def conditional {β : Type} (a b : β) (is_b : Bool) : β := if is_b then b else a

/-- Embeds util.rs cycle_swap, the loop part: for i in 1..cnt, the argument r
counts the remaining iterations and i is the Rust loop variable. -/
def cycle_swap_loop (a b : Nat) : Mem α → Nat → Nat → Mem α
  | m, _, 0 => m
  | m, i, r + 1 =>
      let m1 := wr m (b + i - 1) (rd m (a + i))
      let m2 := wr m1 (a + i) (rd m1 (b + i))
      cycle_swap_loop a b m2 (i + 1) r

/-- Embeds util.rs cycle_swap(a, b, cnt): exchange two equal length regions
with a single temporary, chaining moves through region b. -/
def cycle_swap (m : Mem α) (a b cnt : Nat) : Mem α :=
  let tmp := rd m a
  let m1 := wr m a (rd m b)
  let m2 := cycle_swap_loop a b m1 1 (cnt - 1)
  wr m2 (b + cnt - 1) tmp

/-- Embeds core ptr swap of two single elements. -/
def swap1 (m : Mem α) (x y : Nat) : Mem α := wr (wr m x (rd m y)) y (rd m x)

/-- Embeds ptr swap_nonoverlapping element by element, from index i with r
iterations remaining. -/
def swap_regions_loop (x y : Nat) : Mem α → Nat → Nat → Mem α
  | m, _, 0 => m
  | m, i, r + 1 => swap_regions_loop x y (swap1 m (x + i) (y + i)) (i + 1) r

/-- Embeds ptr swap_nonoverlapping(x, y, n). -/
def swap_regions (m : Mem α) (x y n : Nat) : Mem α := swap_regions_loop x y m 0 n

/-- Embeds ptr copy(src, dst, cnt), memmove semantics: every destination slot
receives the value the source slot held before the call. -/
def copy_mem (m : Mem α) (src dst cnt : Nat) : Mem α :=
  (List.range cnt).foldl (fun acc i => wr acc (dst + i) (rd m (src + i))) m

/-- Embeds util.rs insert_left(s, cnt): shift the element at s left past cnt
neighbours. -/
def insert_left (m : Mem α) (s cnt : Nat) : Mem α :=
  let tmp := rd m s
  wr (copy_mem m (s - cnt) (s + 1 - cnt) cnt) (s - cnt) tmp

/-- Embeds util.rs insert_right(s, cnt): shift the element at s right past cnt
neighbours. -/
def insert_right (m : Mem α) (s cnt : Nat) : Mem α :=
  let tmp := rd m s
  wr (copy_mem m (s + 1) s cnt) (s + cnt) tmp

/-- Embeds the loop of util.rs rotate; fuel dominates the iteration count since
every iteration shrinks n1 + n2 by at least one. -/
def rotate_loop : Nat → Mem α → Nat → Nat → Nat → Mem α × Nat × Nat × Nat
  | 0, m, s, n1, n2 => (m, s, n1, n2)
  | fuel + 1, m, s, n1, n2 =>
      if 1 < n1 ∧ 1 < n2 then
        if n2 < n1 then
          rotate_loop fuel (swap_regions m (s + n1 - n2) (s + n1) n2) s (n1 - n2) n2
        else
          rotate_loop fuel (swap_regions m s (s + n1) n1) (s + n1) n1 (n2 - n1)
      else (m, s, n1, n2)

/-- Embeds util.rs rotate(s, n1, n2): exchange the adjacent regions of sizes n1
and n2 in place. -/
def rotate (m : Mem α) (s n1 n2 : Nat) : Mem α :=
  match rotate_loop (n1 + n2) m s n1 n2 with
  | (m1, s1, n1r, n2r) =>
      if n1r = 1 then insert_right m1 s1 n2r
      else if n2r = 1 then insert_left m1 (s1 + n1r) n1r
      else m1

/-- Embeds the loop of util.rs lower_bound; the window n halves every step, so
fuel equal to the initial n dominates the iteration count. -/
def lower_bound_loop (f : Nat → Bool) : Nat → Nat → Nat → Nat
  | 0, i, _ => i
  | fuel + 1, i, n =>
      if n = 0 then i
      else lower_bound_loop f fuel (i + conditional 0 (n - n / 2) (f (i + n / 2))) (n / 2)

/-- Embeds util.rs lower_bound(n, f): the caller guarantees f is partitioned,
and the result is the partition point. -/
def lower_bound (n : Nat) (f : Nat → Bool) : Nat := lower_bound_loop f n 0 n

/-- Embeds util.rs search_left(s, n, val): the number of elements in the region
which are less than the value val. -/
def search_left (m : Mem α) (s n : Nat) (v : α) (less : α → α → Bool) : Nat :=
  lower_bound n (fun x => less (rd m (s + x)) v)

/-- Embeds util.rs search_right(s, n, val): the number of elements which the
value val is not less than. -/
def search_right (m : Mem α) (s n : Nat) (v : α) (less : α → α → Bool) : Nat :=
  lower_bound n (fun x => !less v (rd m (s + x)))

/-- Embeds util.rs block_swap_length(s1, n1, s2, n2): the largest e such that
the leftmost e elements of the second region are less than the rightmost e
elements of the first region, computed by lower_bound. -/
def block_swap_length (m : Mem α) (s1 n1 s2 n2 : Nat) (less : α → α → Bool) : Nat :=
  lower_bound (min n1 n2) (fun i => less (rd m (s2 + i)) (rd m (s1 + n1 - i - 1)))

/-- Embeds usize ilog2 from dust.rs array_block_length; the value halves every
step so fuel n dominates the iteration count. -/
def ilog2_loop : Nat → Nat → Nat
  | 0, _ => 0
  | fuel + 1, n => if 2 ≤ n then ilog2_loop fuel (n / 2) + 1 else 0

/-- Embeds usize ilog2 (floor of the base two logarithm). -/
def ilog2 (n : Nat) : Nat := ilog2_loop n n

/-- Embeds dust.rs array_block_length(n): the desired block length to sort n
elements. -/
def array_block_length (n : Nat) : Nat :=
  let k := 1 <<< ((ilog2 n + 1) / 2)
  k <<< (if k < n / k then 1 else 0)

/-- Embeds the ideal buffer size computed by dust.rs sort at line 218 for the
block length chosen at line 189: block_len + (n + 1) / block_len - 2, with the
Rust integer (floor) division. -/
def ideal_keys (n : Nat) : Nat :=
  let block_len := array_block_length (n + 1)
  block_len + (n + 1) / block_len - 2

/-! Basic facts about reads, writes and regions. -/

theorem conditional_true {β : Type} (a b : β) : conditional a b true = b := rfl

theorem conditional_false {β : Type} (a b : β) : conditional a b false = a := rfl

theorem wr_length (m : Mem α) (i : Nat) (v : α) : (wr m i v).length = m.length :=
  List.length_set m i v

theorem rd_wr_self {m : Mem α} {i : Nat} (h : i < m.length) (v : α) :
    rd (wr m i v) i = v := by
  simp [rd, wr, List.getD_eq_getElem?_getD, List.getElem?_set_self h]

theorem rd_wr_ne (m : Mem α) {i j : Nat} (h : i ≠ j) (v : α) :
    rd (wr m i v) j = rd m j := by
  simp [rd, wr, List.getD_eq_getElem?_getD, List.getElem?_set_ne h]

theorem seg_length {m : Mem α} {s n : Nat} (h : s + n ≤ m.length) :
    (seg m s n).length = n := by
  simp only [seg, List.length_take, List.length_drop]
  omega

theorem seg_getElem {m : Mem α} {s n j : Nat} (hj : j < n) (h : s + n ≤ m.length)
    (hg : j < (seg m s n).length) : (seg m s n)[j] = rd m (s + j) := by
  have hlt : s + j < m.length := by omega
  have h1 : (seg m s n)[j]? = some ((seg m s n)[j]) := List.getElem?_eq_getElem hg
  have h2 : (seg m s n)[j]? = m[s + j]? := by
    simp [seg, List.getElem?_take, List.getElem?_drop, hj]
  rw [h2, List.getElem?_eq_getElem hlt] at h1
  have := Option.some.inj h1
  rw [← this, rd, List.getD_eq_getElem m default hlt]

theorem seg_eq_of_rd {m1 m2 : Mem α} {s1 s2 n : Nat} (h1 : s1 + n ≤ m1.length)
    (h2 : s2 + n ≤ m2.length) (h : ∀ j, j < n → rd m1 (s1 + j) = rd m2 (s2 + j)) :
    seg m1 s1 n = seg m2 s2 n := by
  apply List.ext_getElem
  · rw [seg_length h1, seg_length h2]
  · intro j hj1 hj2
    have hjn : j < n := by rw [seg_length h1] at hj1; exact hj1
    rw [seg_getElem hjn h1 hj1, seg_getElem hjn h2 hj2, h j hjn]

theorem seg_split (m : Mem α) (s p q : Nat) :
    seg m s (p + q) = seg m s p ++ seg m (s + p) q := by
  simp [seg, List.take_add, List.drop_drop]

theorem seg_one {m : Mem α} {s : Nat} (h : s < m.length) : seg m s 1 = [rd m s] := by
  rw [seg, List.drop_eq_getElem_cons h, List.take_succ_cons, List.take_zero, rd,
    List.getD_eq_getElem m default h]

theorem seg_cons {m : Mem α} {s n : Nat} (h : s < m.length) :
    seg m s (n + 1) = rd m s :: seg m (s + 1) n := by
  rw [seg, List.drop_eq_getElem_cons h, List.take_succ_cons, rd,
    List.getD_eq_getElem m default h]
  rfl

/-! Characterization of cycle_swap: region a receives the old contents of
region b in order, while region b receives the old contents of region a
rotated left by one position. -/

theorem cycle_swap_loop_spec (m : Mem α) (a b cnt : Nat)
    (ha : a + cnt ≤ m.length) (hb : b + cnt ≤ m.length)
    (hdisj : a + cnt ≤ b ∨ b + cnt ≤ a) :
    ∀ r i m', i + r = cnt → 1 ≤ i →
      m'.length = m.length →
      (∀ j, j < i → rd m' (a + j) = rd m (b + j)) →
      (∀ j, j + 1 < i → rd m' (b + j) = rd m (a + j + 1)) →
      (∀ k, (k < a ∨ a + i ≤ k) → (k < b ∨ b + i - 1 ≤ k) → rd m' k = rd m k) →
      ((cycle_swap_loop a b m' i r).length = m.length ∧
       (∀ j, j < cnt → rd (cycle_swap_loop a b m' i r) (a + j) = rd m (b + j)) ∧
       (∀ j, j + 1 < cnt → rd (cycle_swap_loop a b m' i r) (b + j) = rd m (a + j + 1)) ∧
       (∀ k, (k < a ∨ a + cnt ≤ k) → (k < b ∨ b + cnt - 1 ≤ k) →
         rd (cycle_swap_loop a b m' i r) k = rd m k)) := by
  intro r
  induction r with
  | zero =>
      intro i m' hic _ hlen hA hB hU
      have : i = cnt := by omega
      subst this
      exact ⟨hlen, hA, hB, hU⟩
  | succ r ih =>
      intro i m' hic hi1 hlen hA hB hU
      have hicnt : i < cnt := by omega
      -- the two writes of the loop body
      have hru : rd m' (a + i) = rd m (a + i) := by
        apply hU
        · omega
        · rcases hdisj with hd | hd
          · left; omega
          · right; omega
      have hm1len : (wr m' (b + i - 1) (rd m' (a + i))).length = m.length := by
        rw [wr_length]; exact hlen
      have hbne : b + i ≠ b + i - 1 := by omega
      have hrbi : rd (wr m' (b + i - 1) (rd m' (a + i))) (b + i) = rd m (b + i) := by
        rw [rd_wr_ne _ (by omega)]
        apply hU
        · rcases hdisj with hd | hd
          · right; omega
          · left; omega
        · right; omega
      set m1 := wr m' (b + i - 1) (rd m' (a + i)) with hm1
      set m2 := wr m1 (a + i) (rd m1 (b + i)) with hm2
      have hstep : cycle_swap_loop a b m' i (r + 1) = cycle_swap_loop a b m2 (i + 1) r := rfl
      rw [hstep]
      -- disjointness consequences
      have hane : ∀ j, j < cnt → a + j ≠ b + i - 1 := by
        intro j hj
        rcases hdisj with hd | hd
        · omega
        · omega
      have hbne2 : ∀ j, j + 1 < cnt → b + j ≠ a + i := by
        intro j hj
        rcases hdisj with hd | hd
        · omega
        · omega
      apply ih (i + 1) m2 (by omega) (by omega)
      · rw [hm2, wr_length, hm1len]
      · intro j hj
        rcases Nat.lt_or_ge j i with hji | hji
        · rw [hm2, rd_wr_ne _ (by omega), hm1, rd_wr_ne _ (hane j (by omega)).symm]
          exact hA j hji
        · have : j = i := by omega
          subst this
          rw [hm2, rd_wr_self (by omega) _, hrbi]
      · intro j hj
        rcases Nat.lt_or_ge (j + 1) i with hji | hji
        · rw [hm2, rd_wr_ne _ (hbne2 j (by omega)).symm, hm1, rd_wr_ne _ (by omega)]
          exact hB j hji
        · have : j = i - 1 := by omega
          subst this
          have hbi : b + (i - 1) = b + i - 1 := by omega
          rw [hm2, rd_wr_ne _ (hbne2 (i - 1) (by omega)).symm, hbi, hm1,
            rd_wr_self (by omega) _, hru]
          congr 1
          omega
      · intro k hk1 hk2
        rw [hm2, rd_wr_ne _ (by omega), hm1, rd_wr_ne _ (by omega)]
        apply hU
        · omega
        · omega

theorem cycle_swap_rd (m : Mem α) (a b cnt : Nat) (h1 : 1 ≤ cnt)
    (ha : a + cnt ≤ m.length) (hb : b + cnt ≤ m.length)
    (hdisj : a + cnt ≤ b ∨ b + cnt ≤ a) :
    ((cycle_swap m a b cnt).length = m.length ∧
     (∀ j, j < cnt → rd (cycle_swap m a b cnt) (a + j) = rd m (b + j)) ∧
     (∀ j, j + 1 < cnt → rd (cycle_swap m a b cnt) (b + j) = rd m (a + j + 1)) ∧
     rd (cycle_swap m a b cnt) (b + cnt - 1) = rd m a) := by
  have hm1len : (wr m a (rd m b)).length = m.length := wr_length m a (rd m b)
  have hinit := cycle_swap_loop_spec m a b cnt ha hb hdisj (cnt - 1) 1
    (wr m a (rd m b)) (by omega) (by omega) hm1len
    (by
      intro j hj
      have : j = 0 := by omega
      subst this
      simpa using rd_wr_self (by omega) (rd m b))
    (by intro j hj; omega)
    (by
      intro k hk1 hk2
      apply rd_wr_ne
      omega)
  obtain ⟨hlen2, hA, hB, hU⟩ := hinit
  set m2 := cycle_swap_loop a b (wr m a (rd m b)) 1 (cnt - 1) with hm2
  have hout : cycle_swap m a b cnt = wr m2 (b + cnt - 1) (rd m a) := rfl
  have hanebc : ∀ j, j < cnt → a + j ≠ b + cnt - 1 := by
    intro j hj
    rcases hdisj with hd | hd
    · omega
    · omega
  refine ⟨?_, ?_, ?_, ?_⟩
  · rw [hout, wr_length, hlen2]
  · intro j hj
    rw [hout, rd_wr_ne _ (hanebc j hj).symm]
    exact hA j hj
  · intro j hj
    rw [hout, rd_wr_ne _ (by omega)]
    exact hB j hj
  · rw [hout, rd_wr_self (by omega) _]

/-- Claim C4, counterexample: for the memory [10, 20, 30, 40] with regions
a = 0..2 and b = 2..4 (cnt = 2), region b does not receive the old contents of
region a in order: position b holds 20, not the 10 the claim requires, so the
claim as stated is false. -/
theorem cycle_swap_counterexample :
    cycle_swap ([10, 20, 30, 40] : Mem Nat) 0 2 2 = [30, 40, 20, 10] ∧
    ¬ (∀ i, i < 2 →
      rd (cycle_swap ([10, 20, 30, 40] : Mem Nat) 0 2 2) (2 + i) =
        rd ([10, 20, 30, 40] : Mem Nat) (0 + i)) := by
  constructor
  · rfl
  · intro hcontra
    have := hcontra 0 (by omega)
    simp [cycle_swap, cycle_swap_loop, rd, wr] at this

/-- Claim C4, amended: for every cnt at least 1 and non overlapping equal
length in bounds regions a and b, after cycle_swap(a, b, cnt) the region a
holds the original contents of b in order (a[i] = b_old[i] for i < cnt), and
the region b holds a permutation of the original contents of a (namely a_old
rotated left by one position). -/
theorem cycle_swap_spec (m : Mem α) (a b cnt : Nat) (h1 : 1 ≤ cnt)
    (ha : a + cnt ≤ m.length) (hb : b + cnt ≤ m.length)
    (hdisj : a + cnt ≤ b ∨ b + cnt ≤ a) :
    (∀ i, i < cnt → rd (cycle_swap m a b cnt) (a + i) = rd m (b + i)) ∧
    (seg (cycle_swap m a b cnt) b cnt).Perm (seg m a cnt) := by
  obtain ⟨c, rfl⟩ : ∃ c, cnt = c + 1 := ⟨cnt - 1, by omega⟩
  obtain ⟨hlen, hA, hB, hLast⟩ := cycle_swap_rd m a b (c + 1) h1 ha hb hdisj
  refine ⟨hA, ?_⟩
  set m' := cycle_swap m a b (c + 1) with hm'
  have hsplit : seg m' b (c + 1) = seg m' b c ++ seg m' (b + c) 1 := seg_split m' b c 1
  have hbc : b + (c + 1) - 1 = b + c := by omega
  rw [hbc] at hLast
  have htail : seg m' (b + c) 1 = [rd m a] := by
    rw [seg_one (by omega), hLast]
  have hfront : seg m' b c = seg m (a + 1) c := by
    apply seg_eq_of_rd (by omega) (by omega)
    intro j hj
    rw [hB j (by omega)]
    congr 1
    omega
  have hsrc : seg m a (c + 1) = rd m a :: seg m (a + 1) c := seg_cons (by omega)
  rw [hsplit, htail, hfront, hsrc]
  exact List.perm_append_singleton _ _

/-- Claim C4, witness for the amended theorem on the memory [10, 20, 30, 40]
with a = 0, b = 2, cnt = 2. -/
theorem cycle_swap_spec_witness :
    (∀ i, i < 2 →
      rd (cycle_swap ([10, 20, 30, 40] : Mem Nat) 0 2 2) (0 + i) =
        rd ([10, 20, 30, 40] : Mem Nat) (2 + i)) ∧
    (seg (cycle_swap ([10, 20, 30, 40] : Mem Nat) 0 2 2) 2 2).Perm
      (seg ([10, 20, 30, 40] : Mem Nat) 0 2) :=
  cycle_swap_spec ([10, 20, 30, 40] : Mem Nat) 0 2 2 (by omega) (by decide)
    (by decide) (by omega)

/-! The internal buffer of buffer.rs and its begin_merge operation. -/

/-- Embeds the Buffer struct of buffer.rs: start pointer, element count, and
the upper bound on the length of the unsorted leading part. -/
structure Buffer where
  start : Nat
  len : Nat
  unsorted : Nat
deriving DecidableEq

/-- Embeds buffer.rs Buffer begin_merge(dst, cnt).  The Rust code panics with
an Ord violated diagnostic when cnt = 0, modelled by the none result; otherwise
it raises the unsorted watermark to max(unsorted, cnt) and swaps cnt buffer
elements into place at dst with cycle_swap (the Rust code updates the watermark
before the swap; the final state is the same). -/
def Buffer.begin_merge (b : Buffer) (m : Mem α) (dst cnt : Nat) : Option (Buffer × Mem α) :=
  if cnt = 0 then none
  else some ({ b with unsorted := max b.unsorted cnt }, cycle_swap m b.start dst cnt)

/-- Claim C7: begin_merge aborts (none, the Ord violated panic) exactly when
cnt = 0; for cnt positive it performs cycle_swap(buf.start, dst, cnt) and sets
unsorted to max(unsorted, cnt), leaving start and len unchanged. -/
theorem begin_merge_spec (b : Buffer) (m : Mem α) (dst cnt : Nat) :
    (Buffer.begin_merge b m dst cnt = none ↔ cnt = 0) ∧
    (0 < cnt → ∀ b' m', Buffer.begin_merge b m dst cnt = some (b', m') →
      b'.start = b.start ∧ b'.len = b.len ∧ b'.unsorted = max b.unsorted cnt ∧
      m' = cycle_swap m b.start dst cnt) := by
  constructor
  · constructor
    · intro h
      by_contra hc
      simp [Buffer.begin_merge, hc] at h
    · intro h
      simp [Buffer.begin_merge, h]
  · intro hc b' m' h
    simp only [Buffer.begin_merge, if_neg (by omega : ¬ cnt = 0)] at h
    obtain ⟨h1, h2⟩ := Prod.mk.injEq .. ▸ Option.some.inj h
    subst h1
    subst h2
    exact ⟨rfl, rfl, rfl, rfl⟩

/-- Claim C7, witness at a concrete buffer and memory with cnt = 1. -/
theorem begin_merge_spec_witness :
    (Buffer.begin_merge ⟨4, 1, 0⟩ ([5, 6, 7, 8, 9] : Mem Nat) 0 1 = none ↔ (1 : Nat) = 0) ∧
    (∀ b' m', Buffer.begin_merge ⟨4, 1, 0⟩ ([5, 6, 7, 8, 9] : Mem Nat) 0 1 = some (b', m') →
      b'.start = 4 ∧ b'.len = 1 ∧ b'.unsorted = max 0 1 ∧
      m' = cycle_swap ([5, 6, 7, 8, 9] : Mem Nat) 4 0 1) :=
  ⟨(begin_merge_spec ⟨4, 1, 0⟩ ([5, 6, 7, 8, 9] : Mem Nat) 0 1).1,
   (begin_merge_spec ⟨4, 1, 0⟩ ([5, 6, 7, 8, 9] : Mem Nat) 0 1).2 (by omega)⟩

/-! Bounds for lower_bound and block_swap_length. -/

theorem lower_bound_loop_le (f : Nat → Bool) :
    ∀ fuel i n, lower_bound_loop f fuel i n ≤ i + n := by
  intro fuel
  induction fuel with
  | zero => intro i n; simp [lower_bound_loop]
  | succ fuel ih =>
      intro i n
      simp only [lower_bound_loop]
      split
      · omega
      · refine le_trans (ih _ _) ?_
        rcases Bool.eq_false_or_eq_true (f (i + n / 2)) with hf | hf
        · simp [conditional, hf]
          omega
        · simp [conditional, hf]
          omega

theorem lower_bound_le (n : Nat) (f : Nat → Bool) : lower_bound n f ≤ n := by
  have := lower_bound_loop_le f n 0 n
  simpa [lower_bound] using this

theorem block_swap_length_le (m : Mem α) (s1 n1 s2 n2 : Nat) (less : α → α → Bool) :
    block_swap_length m s1 n1 s2 n2 less ≤ min n1 n2 :=
  lower_bound_le _ _

/-! Lazy merging and the in place merge of merge.rs. -/

/-- Embeds dust.rs MIN_FAST_LAZY. -/
def MIN_FAST_LAZY : Nat := 512

/-- Embeds dust.rs RATIO_BIN_MERGE. -/
def RATIO_BIN_MERGE : Nat := 8

/-- Embeds the first branch (n2 at most n1) of merge.rs merge_lazy.  Every
iteration strictly shrinks n2, so fuel n2 dominates the iteration count. -/
def merge_lazy_r (s : Nat) (less : α → α → Bool) : Nat → Mem α → Nat → Nat → Mem α
  | 0, m, _, _ => m
  | fuel + 1, m, n1, n2 =>
      if 0 < n2 then
        let next_1 := search_right m s n1 (rd m (s + n1 + n2 - 1)) less
        let m1 := rotate m (s + next_1) (n1 - next_1) n2
        if next_1 = 0 then m1
        else
          merge_lazy_r s less fuel m1 next_1
            (search_left m1 (s + next_1) (n2 - 1) (rd m1 (s + next_1 - 1)) less)
      else m

/-- Embeds the second branch (n1 below n2) of merge.rs merge_lazy.  Every
iteration strictly shrinks n1, so fuel n1 dominates the iteration count. -/
def merge_lazy_l (less : α → α → Bool) : Nat → Mem α → Nat → Nat → Nat → Mem α
  | 0, m, _, _, _ => m
  | fuel + 1, m, s, n1, n2 =>
      if 0 < n1 then
        let r_adv := search_left m (s + n1) n2 (rd m s) less
        let m1 := rotate m s n1 r_adv
        let s1 := s + r_adv
        let n2a := n2 - r_adv
        if n2a = 0 then m1
        else
          let adv := 1 + search_right m1 (s1 + 1) (n1 - 1) (rd m1 (s1 + n1)) less
          merge_lazy_l less fuel m1 (s1 + adv) (n1 - adv) n2a
      else m

/-- Embeds merge.rs merge_lazy(s, n1, n2): a rotation based merge of two
adjacent runs. -/
def merge_lazy (m : Mem α) (s n1 n2 : Nat) (less : α → α → Bool) : Mem α :=
  if n2 ≤ n1 then merge_lazy_r s less n2 m n1 n2
  else merge_lazy_l less n1 m s n1 n2

/-- Embeds usize next_power_of_two: the smallest power of two not below n
(1 for n = 0); p doubles from 1 so fuel n dominates the iteration count. -/
def next_power_of_two_loop (n : Nat) : Nat → Nat → Nat
  | 0, p => p
  | fuel + 1, p => if n ≤ p then p else next_power_of_two_loop n fuel (2 * p)

/-- Embeds usize next_power_of_two. -/
def next_power_of_two (n : Nat) : Nat := next_power_of_two_loop n n 1

/-- Embeds one iteration of the main loop of merge.rs merge_in_place: compute
the radius, swap the mismatched radii, lazily merge the smaller half and reduce
to the remaining pair of runs.  Returns the new memory, the new base pointer
and the new run lengths. -/
def mip_iterate (m : Mem α) (s n1 n2 : Nat) (less : α → α → Bool) :
    Mem α × Nat × Nat × Nat :=
  let rad := block_swap_length m s n1 (s + n1) n2 less
  let m1 := swap_regions m (s + n1 - rad) (s + n1) rad
  if n2 < n1 then
    (merge_lazy m1 (s + n1) rad (n2 - rad) less, s, n1 - rad, rad)
  else
    (merge_lazy m1 s (n1 - rad) rad less, s + n1, rad, n2 - rad)

/-- Embeds the main loop of merge.rs merge_in_place.  The sum of the run
lengths strictly decreases on every pass that recurses, so fuel n1 + n2
dominates the iteration count. -/
def mip_loop (less : α → α → Bool) : Nat → Mem α → Nat → Nat → Nat → Nat → Mem α
  | 0, m, _, _, _, _ => m
  | fuel + 1, m, s, n1, n2, log_step =>
      if n1 ≤ log_step ∨ n2 ≤ log_step then
        let mn := min n1 n2
        if mn = 0 then m
        else if mn * 2 + 1 < (n1 + n2) / mn then merge_lazy m s n1 n2 less
        else
          let t := mip_iterate m s n1 n2 less
          mip_loop less fuel t.1 t.2.1 t.2.2.1 t.2.2.2 (next_power_of_two mn / 2)
      else
        let t := mip_iterate m s n1 n2 less
        mip_loop less fuel t.1 t.2.1 t.2.2.1 t.2.2.2 log_step

/-- Embeds merge.rs merge_in_place(s, n1, n2): trim the right run, then run the
main loop with the trimmed length as the first milestone. -/
def merge_in_place (m : Mem α) (s n1 n2 : Nat) (less : α → α → Bool) : Mem α :=
  if n1 = 0 ∨ n2 = 0 ∨ less (rd m (s + n1)) (rd m (s + n1 - 1)) = false then m
  else if (n1 ||| n2) < MIN_FAST_LAZY then merge_lazy m s n1 n2 less
  else
    let n2t := search_left m (s + n1) n2 (rd m (s + n1 - 1)) less
    mip_loop less (n1 + n2t) m s n1 n2t n2t

theorem mip_iterate_sum (m : Mem α) (s n1 n2 : Nat) (less : α → α → Bool) :
    (mip_iterate m s n1 n2 less).2.2.1 + (mip_iterate m s n1 n2 less).2.2.2 = max n1 n2 := by
  have hr := block_swap_length_le m s n1 (s + n1) n2 less
  simp only [mip_iterate]
  split
  · simp only
    omega
  · simp only
    omega

theorem mip_loop_fuel (less : α → α → Bool) :
    ∀ fuel1 fuel2 (m : Mem α) s n1 n2 ls, n1 + n2 ≤ fuel1 → n1 + n2 ≤ fuel2 →
      mip_loop less fuel1 m s n1 n2 ls = mip_loop less fuel2 m s n1 n2 ls := by
  intro fuel1
  induction fuel1 with
  | zero =>
      intro fuel2 m s n1 n2 ls h1 h2
      have hn1 : n1 = 0 := by omega
      have hn2 : n2 = 0 := by omega
      subst hn1
      subst hn2
      cases fuel2 with
      | zero => rfl
      | succ k =>
          simp [mip_loop]
  | succ k1 ih =>
      intro fuel2 m s n1 n2 ls h1 h2
      cases fuel2 with
      | zero =>
          have hn1 : n1 = 0 := by omega
          have hn2 : n2 = 0 := by omega
          subst hn1
          subst hn2
          simp [mip_loop]
      | succ k2 =>
          have hsum := mip_iterate_sum m s n1 n2 less
          simp only [mip_loop]
          split
          · split
            · rfl
            · split
              · rfl
              · apply ih
                · omega
                · omega
          · rename_i hcond
            apply ih
            · have : 0 < n1 ∧ 0 < n2 := by
                constructor <;> omega
              omega
            · omega

/-- Claim C8: one iteration of the main loop of merge_in_place leaves run
lengths with n1 + n2 equal to max of the previous lengths, hence the total
length strictly decreases whenever both runs are non empty; consequently the
loop is insensitive to any fuel bound of at least n1 + n2, which is the
termination claim for merge_in_place. -/
theorem merge_in_place_terminates (m : Mem α) (s n1 n2 : Nat) (less : α → α → Bool) :
    ((mip_iterate m s n1 n2 less).2.2.1 + (mip_iterate m s n1 n2 less).2.2.2 = max n1 n2) ∧
    (0 < n1 → 0 < n2 →
      (mip_iterate m s n1 n2 less).2.2.1 + (mip_iterate m s n1 n2 less).2.2.2 < n1 + n2) ∧
    (∀ ls fuel, n1 + n2 ≤ fuel →
      mip_loop less fuel m s n1 n2 ls = mip_loop less (n1 + n2) m s n1 n2 ls) := by
  refine ⟨mip_iterate_sum m s n1 n2 less, ?_, ?_⟩
  · intro h1 h2
    rw [mip_iterate_sum m s n1 n2 less]
    omega
  · intro ls fuel h
    exact mip_loop_fuel less fuel (n1 + n2) m s n1 n2 ls h (le_refl _)

/-- Claim C8, witness on the two element memory [2, 1] with two singleton
runs. -/
theorem merge_in_place_terminates_witness :
    ((mip_iterate ([2, 1] : Mem Nat) 0 1 1 (fun a b => decide (a < b))).2.2.1 +
      (mip_iterate ([2, 1] : Mem Nat) 0 1 1 (fun a b => decide (a < b))).2.2.2 < 1 + 1) ∧
    mip_loop (fun a b => decide (a < b)) 7 ([2, 1] : Mem Nat) 0 1 1 0 =
      mip_loop (fun a b => decide (a < b)) (1 + 1) ([2, 1] : Mem Nat) 0 1 1 0 :=
  ⟨(merge_in_place_terminates ([2, 1] : Mem Nat) 0 1 1 (fun a b => decide (a < b))).2.1
      (by omega) (by omega),
   (merge_in_place_terminates ([2, 1] : Mem Nat) 0 1 1 (fun a b => decide (a < b))).2.2 0 7
      (by omega)⟩

/-! Buffered merge kernels of merge.rs and the adaptive merge entry point. -/

/-- Embeds the Hole of util.rs as used by the merge kernels: pos none stands
for the initial position on the stack temporary, in which case the first cycle
records the overwritten destination value as the stash that the drop at the
end of the merge restores into the final hole position. -/
structure Hole (α : Type) where
  pos : Option Nat
  stash : α

/-- Embeds Hole cycle(src, dst): write the value at dst into the hole, move
the value at src into dst and let the hole travel to src. -/
def Hole.cycle (h : Hole α) (m : Mem α) (src dst : Nat) : Hole α × Mem α :=
  match h.pos with
  | none => (⟨some src, rd m dst⟩, wr m dst (rd m src))
  | some p =>
      let m1 := wr m p (rd m dst)
      (⟨some src, h.stash⟩, wr m1 dst (rd m1 src))

/-- Embeds the Drop of Hole: restore the stashed value into the current hole
position (a stack position, hence no memory effect, when no cycle ran). -/
def Hole.drop (h : Hole α) (m : Mem α) : Mem α :=
  match h.pos with
  | none => m
  | some p => wr m p h.stash

/-- Embeds merge.rs end_merge(dst, src, cnt). -/
def end_merge (m : Mem α) (dst src cnt : Nat) : Mem α :=
  if dst ≠ src then cycle_swap m dst src cnt else m

/-- Embeds the loop of merge.rs merge_right; each pass consumes one input
element, so fuel n1 + n2 dominates the iteration count. -/
def merge_right_loop (s1 n1 s2 n2 : Nat) (less : α → α → Bool) :
    Nat → Mem α → Hole α → Nat → Nat → Nat → Mem α × Hole α × Nat × Nat × Nat
  | 0, m, h, i1, i2, dst => (m, h, i1, i2, dst)
  | fuel + 1, m, h, i1, i2, dst =>
      if i1 < n1 ∧ i2 < n2 then
        let is_2 := less (rd m (s2 + i2)) (rd m (s1 + i1))
        let hm := h.cycle m (conditional (s1 + i1) (s2 + i2) is_2) dst
        merge_right_loop s1 n1 s2 n2 less fuel hm.2 hm.1
          (i1 + conditional 1 0 is_2) (i2 + conditional 0 1 is_2) (dst + 1)
      else (m, h, i1, i2, dst)

/-- Embeds merge.rs merge_right(s1, n1, s2, n2, dst): classic rightwards merge
through a travelling hole; returns the new memory and the number of elements
merged in the loop. -/
def merge_right (m : Mem α) (s1 n1 s2 n2 dst : Nat) (less : α → α → Bool) :
    Mem α × Nat :=
  match merge_right_loop s1 n1 s2 n2 less (n1 + n2) m ⟨none, default⟩ 0 0 dst with
  | (m1, h, i1, i2, dstf) =>
      let m2 := h.drop m1
      let src := conditional (s1 + i1) (s2 + i2) (decide (i2 < n2))
      (end_merge m2 dstf src ((n1 - i1) + (n2 - i2)), i1 + i2)

/-- Embeds the loop of merge.rs merge_left; each pass consumes one input
element, so fuel n1 + n2 dominates the iteration count. -/
def merge_left_loop (s1 s2 : Nat) (less : α → α → Bool) :
    Nat → Mem α → Hole α → Nat → Nat → Nat → Mem α × Hole α × Nat × Nat × Nat
  | 0, m, h, n1, n2, dst_rev => (m, h, n1, n2, dst_rev)
  | fuel + 1, m, h, n1, n2, dst_rev =>
      if 0 < n1 ∧ 0 < n2 then
        let d := dst_rev - 1
        let is_1 := less (rd m (s2 + n2 - 1)) (rd m (s1 + n1 - 1))
        let n1a := n1 - conditional 0 1 is_1
        let n2a := n2 - conditional 1 0 is_1
        let hm := h.cycle m (conditional (s2 + n2a) (s1 + n1a) is_1) d
        merge_left_loop s1 s2 less fuel hm.2 hm.1 n1a n2a d
      else (m, h, n1, n2, dst_rev)

/-- Embeds merge.rs merge_left(s1, n1, s2, n2, dst): classic leftwards merge
through a travelling hole. -/
def merge_left (m : Mem α) (s1 n1 s2 n2 dst : Nat) (less : α → α → Bool) : Mem α :=
  match merge_left_loop s1 s2 less (n1 + n2) m ⟨none, default⟩ n1 n2 (dst + n1 + n2) with
  | (m1, h, n1f, n2f, _) =>
      let m2 := h.drop m1
      end_merge m2 dst (conditional s1 s2 (decide (0 < n2f))) (n1f ||| n2f)

/-- Embeds the loop of merge.rs binary_merge_right; fuel n1 + 2 n2 + 8
dominates the iteration count (every pass consumes an element or advances the
bucket boundary, the latter at most once per bucket). -/
def binary_merge_right_loop (s1 n1 s2 n2 gap : Nat) (less : α → α → Bool) :
    Nat → Mem α → Hole α → Nat → Nat → Nat → Nat → Nat → Mem α × Hole α × Nat × Nat × Nat
  | 0, m, h, i1, i2, dst, _, _ => (m, h, i1, i2, dst)
  | fuel + 1, m, h, i1, i2, dst, bucket, f2 =>
      if i2 < n2 then
        if i2 < f2 then
          let hm := h.cycle m (s2 + i2) dst
          binary_merge_right_loop s1 n1 s2 n2 gap less fuel hm.2 hm.1 i1 (i2 + 1)
            (dst + 1) bucket f2
        else if bucket < i2 then
          let bkt := bucket + gap
          let f2a := if less (rd m (s2 + bkt)) (rd m (s1 + i1)) then bkt + 1
            else i2 + search_left m (s2 + i2) (bkt - i2) (rd m (s1 + i1)) less
          binary_merge_right_loop s1 n1 s2 n2 gap less fuel m h i1 i2 dst bkt f2a
        else
          let hm := h.cycle m (s1 + i1) dst
          let i1a := i1 + 1
          if i1a = n1 then (hm.2, hm.1, i1a, i2, dst + 1)
          else
            let f2a := if less (rd hm.2 (s2 + bucket)) (rd hm.2 (s1 + i1a)) then bucket + 1
              else i2 + search_left hm.2 (s2 + i2) (bucket - i2) (rd hm.2 (s1 + i1a)) less
            binary_merge_right_loop s1 n1 s2 n2 gap less fuel hm.2 hm.1 i1a i2
              (dst + 1) bucket f2a
      else (m, h, i1, i2, dst)

/-- Embeds merge.rs binary_merge_right(s1, n1, s2, n2, dst): bucketed binary
rightwards merge; returns the new memory and the number of elements merged in
the loop. -/
def binary_merge_right (m : Mem α) (s1 n1 s2 n2 dst : Nat) (less : α → α → Bool) :
    Mem α × Nat :=
  let gap := (n1 + n2 - 1) / n1
  let bucket := (n2 + gap - 1) % gap
  let f2 := search_left m s2 (bucket + 1) (rd m s1) less
  match binary_merge_right_loop s1 n1 s2 n2 gap less (n1 + 2 * n2 + 8) m
      ⟨none, default⟩ 0 0 dst bucket f2 with
  | (m1, h, i1, i2, dstf) =>
      let m2 := h.drop m1
      let src := conditional (s1 + i1) (s2 + i2) (decide (i2 < n2))
      (end_merge m2 dstf src ((n1 - i1) + (n2 - i2)), i1 + i2)

/-- Embeds the loop of merge.rs binary_merge_left; fuel 2 n1 + n2 + 8
dominates the iteration count. -/
def binary_merge_left_loop (s1 s2 gap : Nat) (less : α → α → Bool) :
    Nat → Mem α → Hole α → Nat → Nat → Nat → Nat → Nat → Mem α × Hole α × Nat × Nat
  | 0, m, h, n1, n2, _, _, _ => (m, h, n1, n2)
  | fuel + 1, m, h, n1, n2, dst_rev, bucket, f1 =>
      if 0 < n1 then
        if f1 < n1 then
          let hm := h.cycle m (s1 + n1 - 1) (dst_rev - 1)
          binary_merge_left_loop s1 s2 gap less fuel hm.2 hm.1 (n1 - 1) n2
            (dst_rev - 1) bucket f1
        else if n1 = bucket then
          let bkt := bucket - gap
          let f1a := if less (rd m (s2 + n2 - 1)) (rd m (s1 + bkt)) then bkt
            else bkt + 1 + search_right m (s1 + bkt + 1) (n1 - bkt - 1) (rd m (s2 + n2 - 1)) less
          binary_merge_left_loop s1 s2 gap less fuel m h n1 n2 dst_rev bkt f1a
        else
          let hm := h.cycle m (s2 + n2 - 1) (dst_rev - 1)
          let n2a := n2 - 1
          if n2a = 0 then (hm.2, hm.1, n1, n2a)
          else
            let f1a := if less (rd hm.2 (s2 + n2a - 1)) (rd hm.2 (s1 + bucket)) then bucket
              else bucket + 1 +
                search_right hm.2 (s1 + bucket + 1) (n1 - bucket - 1) (rd hm.2 (s2 + n2a - 1)) less
            binary_merge_left_loop s1 s2 gap less fuel hm.2 hm.1 n1 n2a
              (dst_rev - 1) bucket f1a
      else (m, h, n1, n2)

/-- Embeds merge.rs binary_merge_left(s1, n1, s2, n2, dst): bucketed binary
leftwards merge. -/
def binary_merge_left (m : Mem α) (s1 n1 s2 n2 dst : Nat) (less : α → α → Bool) : Mem α :=
  let gap := (n1 + n2 - 1) / n2
  let bucket := (n1 - 1) / gap * gap
  let f1 := bucket + search_right m (s1 + bucket) (n1 - bucket) (rd m (s2 + n2 - 1)) less
  match binary_merge_left_loop s1 s2 gap less (2 * n1 + n2 + 8) m ⟨none, default⟩
      n1 n2 (dst + n1 + n2) bucket f1 with
  | (m1, h, n1f, n2f) =>
      let m2 := h.drop m1
      end_merge m2 dst (conditional s1 s2 (decide (0 < n2f))) (n1f ||| n2f)

/-- Embeds merge.rs merge(buf, s, n1, n2): the adaptive merge.  The Rust
function is recursive with the total length shrinking at every recursive call
(both runs are non empty there), so fuel n1 + n2 dominates the recursion
depth; none propagates the Ord violated panic of begin_merge.  The result
carries the updated buffer, the updated memory and the boolean the Rust
function returns. -/
def merge_fuel (less : α → α → Bool) :
    Nat → Buffer → Mem α → Nat → Nat → Nat → Option (Buffer × Mem α × Bool)
  | 0, b, m, _, _, _ => some (b, m, true)
  | fuel + 1, b, m, s, n1, n2 =>
      if n1 = 0 ∨ n2 = 0 ∨ less (rd m (s + n1)) (rd m (s + n1 - 1)) = false then
        some (b, m, true)
      else if less (rd m (s + n1 + n2 - 1)) (rd m s) then
        some (b, rotate m s n1 n2, true)
      else
        let rad := block_swap_length m s n1 (s + n1) n2 less
        if b.len < rad then
          if b.len < max n1 n2 - rad then some (b, m, false)
          else
            let m1 := swap_regions m (s + n1 - rad) (s + n1) rad
            match merge_fuel less fuel b m1 s (n1 - rad) rad with
            | none => none
            | some (b2, m2, ok1) =>
                if ok1 then merge_fuel less fuel b2 m2 (s + n1) rad (n2 - rad)
                else some (b2, m2, false)
        else
          match Buffer.begin_merge b m (s + n1 - rad) rad with
          | none => none
          | some (b1, m1) =>
              let m2 := if (n1 - rad) / RATIO_BIN_MERGE < rad
                then merge_left m1 s (n1 - rad) (s + n1) rad s less
                else binary_merge_left m1 s (n1 - rad) (s + n1) rad s less
              let m3 := if (n2 - rad) / RATIO_BIN_MERGE < rad
                then (merge_right m2 b1.start rad (s + n1 + rad) (n2 - rad) (s + n1) less).1
                else (binary_merge_right m2 b1.start rad (s + n1 + rad) (n2 - rad) (s + n1) less).1
              some (b1, m3, true)

/-- Embeds merge.rs merge(buf, s, n1, n2, less) at adequate fuel. -/
def merge (b : Buffer) (m : Mem α) (s n1 n2 : Nat) (less : α → α → Bool) :
    Option (Buffer × Mem α × Bool) :=
  merge_fuel less (n1 + n2) b m s n1 n2

theorem merge_fuel_no_false_of_small (less : α → α → Bool) (fuel : Nat) (b : Buffer)
    (m : Mem α) (s n1 n2 : Nat) (h : min n1 n2 ≤ b.len) :
    ∀ b' m', merge_fuel less fuel b m s n1 n2 ≠ some (b', m', false) := by
  intro b' m' hc
  cases fuel with
  | zero => simp [merge_fuel] at hc
  | succ fuel =>
      have hrad := block_swap_length_le m s n1 (s + n1) n2 less
      simp only [merge_fuel] at hc
      split at hc
      · simp at hc
      · split at hc
        · simp at hc
        · rw [if_neg (by omega)] at hc
          rcases hbm : Buffer.begin_merge b m
              (s + n1 - block_swap_length m s n1 (s + n1) n2 less)
              (block_swap_length m s n1 (s + n1) n2 less) with _ | bm
          · rw [hbm] at hc
            simp at hc
          · rw [hbm] at hc
            simp at hc

theorem merge_fuel_len (less : α → α → Bool) :
    ∀ (fuel : Nat) (b : Buffer) (m : Mem α) (s n1 n2 : Nat) b' m' ok,
      merge_fuel less fuel b m s n1 n2 = some (b', m', ok) → b'.len = b.len := by
  intro fuel
  induction fuel with
  | zero =>
      intro b m s n1 n2 b' m' ok h
      simp only [merge_fuel] at h
      obtain ⟨h1, -⟩ := Prod.mk.injEq .. ▸ Option.some.inj h
      rw [← h1]
  | succ fuel ih =>
      intro b m s n1 n2 b' m' ok h
      simp only [merge_fuel] at h
      split at h
      · obtain ⟨h1, -⟩ := Prod.mk.injEq .. ▸ Option.some.inj h
        rw [← h1]
      · split at h
        · obtain ⟨h1, -⟩ := Prod.mk.injEq .. ▸ Option.some.inj h
          rw [← h1]
        · split at h
          · split at h
            · obtain ⟨h1, -⟩ := Prod.mk.injEq .. ▸ Option.some.inj h
              rw [← h1]
            · rcases hrec : merge_fuel less fuel b
                  (swap_regions m
                    (s + n1 - block_swap_length m s n1 (s + n1) n2 less) (s + n1)
                    (block_swap_length m s n1 (s + n1) n2 less))
                  s (n1 - block_swap_length m s n1 (s + n1) n2 less)
                  (block_swap_length m s n1 (s + n1) n2 less) with _ | t
              · rw [hrec] at h
                simp at h
              · rw [hrec] at h
                obtain ⟨b2, m2, ok1⟩ := t
                have hb2 := ih _ _ _ _ _ _ _ _ hrec
                simp only at h
                split at h
                · have := ih _ _ _ _ _ _ _ _ h
                  omega
                · obtain ⟨h1, -⟩ := Prod.mk.injEq .. ▸ Option.some.inj h
                  rw [← h1]
                  omega
          · rcases hbm : Buffer.begin_merge b m
                (s + n1 - block_swap_length m s n1 (s + n1) n2 less)
                (block_swap_length m s n1 (s + n1) n2 less) with _ | bm
            · rw [hbm] at h
              simp at h
            · rw [hbm] at h
              simp only at h
              obtain ⟨h1, -⟩ := Prod.mk.injEq .. ▸ Option.some.inj h
              rw [← h1]
              obtain ⟨b1, m1⟩ := bm
              have : b1.len = b.len := by
                simp only [Buffer.begin_merge] at hbm
                split at hbm
                · simp at hbm
                · obtain ⟨h2, -⟩ := Prod.mk.injEq .. ▸ Option.some.inj hbm
                  rw [← h2]
              simpa using this

/-- Claim C3: the adaptive merge returns false only when the buffer is too
small, namely when the computed radius exceeds the buffer length and so does
max(n1, n2) minus the radius; whenever it returns false the memory (hence the
sequence) and the buffer are exactly as on entry; and under the complementary
condition (radius too large but the mismatched half small enough, the case in
which the code swaps the radii and recurses) the merge never returns false, so
the recursive split never fails. -/
theorem merge_false_characterization (b : Buffer) (m : Mem α) (s n1 n2 : Nat)
    (less : α → α → Bool) :
    (∀ b' m', merge b m s n1 n2 less = some (b', m', false) →
      (b.len < block_swap_length m s n1 (s + n1) n2 less ∧
       b.len < max n1 n2 - block_swap_length m s n1 (s + n1) n2 less ∧
       b' = b ∧ m' = m)) ∧
    (b.len < block_swap_length m s n1 (s + n1) n2 less →
     max n1 n2 - block_swap_length m s n1 (s + n1) n2 less ≤ b.len →
     ∀ b' m', merge b m s n1 n2 less ≠ some (b', m', false)) := by
  have hrad := block_swap_length_le m s n1 (s + n1) n2 less
  have hres :
      (merge b m s n1 n2 less = some (b, m, false) ∧
        b.len < block_swap_length m s n1 (s + n1) n2 less ∧
        b.len < max n1 n2 - block_swap_length m s n1 (s + n1) n2 less) ∨
      (∀ b' m', merge b m s n1 n2 less ≠ some (b', m', false)) := by
    by_cases hz : n1 + n2 = 0
    · right
      intro b' m' hc
      have hm : merge b m s n1 n2 less = merge_fuel less (n1 + n2) b m s n1 n2 := rfl
      rw [hm, hz] at hc
      simp [merge_fuel] at hc
    · obtain ⟨fuel, hf⟩ : ∃ f, n1 + n2 = f + 1 := ⟨n1 + n2 - 1, by omega⟩
      have hm : merge b m s n1 n2 less = merge_fuel less (fuel + 1) b m s n1 n2 := by
        rw [merge, hf]
      by_cases hA : n1 = 0 ∨ n2 = 0 ∨ less (rd m (s + n1)) (rd m (s + n1 - 1)) = false
      · right
        intro b' m' hc
        rw [hm] at hc
        simp only [merge_fuel, if_pos hA] at hc
        simp at hc
      · by_cases hB : less (rd m (s + n1 + n2 - 1)) (rd m s) = true
        · right
          intro b' m' hc
          rw [hm] at hc
          simp only [merge_fuel, if_neg hA, if_pos hB] at hc
          simp at hc
        · by_cases hC : b.len < block_swap_length m s n1 (s + n1) n2 less
          · by_cases hD : b.len < max n1 n2 - block_swap_length m s n1 (s + n1) n2 less
            · left
              refine ⟨?_, hC, hD⟩
              rw [hm]
              simp only [merge_fuel, if_neg hA, if_neg hB, if_pos hC, if_pos hD]
            · right
              intro b' m' hc
              rw [hm] at hc
              simp only [merge_fuel, if_neg hA, if_neg hB, if_pos hC, if_neg hD] at hc
              have hn12 : n1 ≠ 0 ∧ n2 ≠ 0 := by
                constructor
                · intro h0
                  exact hA (Or.inl h0)
                · intro h0
                  exact hA (Or.inr (Or.inl h0))
              rcases hrec : merge_fuel less fuel b
                  (swap_regions m
                    (s + n1 - block_swap_length m s n1 (s + n1) n2 less) (s + n1)
                    (block_swap_length m s n1 (s + n1) n2 less))
                  s (n1 - block_swap_length m s n1 (s + n1) n2 less)
                  (block_swap_length m s n1 (s + n1) n2 less) with _ | t
              · rw [hrec] at hc
                simp at hc
              · rw [hrec] at hc
                obtain ⟨b2, m2, ok1⟩ := t
                simp only at hc
                split at hc
                · have hb2 : b2.len = b.len := merge_fuel_len less fuel _ _ _ _ _ _ _ _ hrec
                  exact merge_fuel_no_false_of_small less fuel b2 m2 (s + n1)
                    (block_swap_length m s n1 (s + n1) n2 less)
                    (n2 - block_swap_length m s n1 (s + n1) n2 less)
                    (by omega) b' m' hc
                · rename_i hok1
                  have hok1f : ok1 = false := by
                    rcases Bool.eq_false_or_eq_true ok1 with h0 | h0
                    · exact absurd h0 hok1
                    · exact h0
                  rw [hok1f] at hrec
                  exact merge_fuel_no_false_of_small less fuel b _ s _ _
                    (by omega) b2 m2 hrec
          · right
            intro b' m' hc
            rw [hm] at hc
            simp only [merge_fuel, if_neg hA, if_neg hB, if_neg hC] at hc
            rcases hbm : Buffer.begin_merge b m
                (s + n1 - block_swap_length m s n1 (s + n1) n2 less)
                (block_swap_length m s n1 (s + n1) n2 less) with _ | bm
            · rw [hbm] at hc
              simp at hc
            · rw [hbm] at hc
              simp at hc
  constructor
  · intro b' m' hc
    rcases hres with ⟨he, h1, h2⟩ | hno
    · rw [he] at hc
      simp only [Option.some.injEq, Prod.mk.injEq] at hc
      exact ⟨h1, h2, hc.1.symm, hc.2.1.symm⟩
    · exact absurd hc (hno b' m')
  · intro h1 h2 b' m' hc
    rcases hres with ⟨-, -, hd⟩ | hno
    · omega
    · exact hno b' m' hc

/-- Claim C3, witness: a concrete failing merge on the memory [1, 3, 2, 4]
(runs [1, 3] and [2, 4], radius 1) with an empty buffer: the merge returns
false, the conditions of the theorem hold, and memory and buffer are
untouched. -/
theorem merge_false_characterization_witness :
    Buffer.len ⟨4, 0, 0⟩ < block_swap_length ([1, 3, 2, 4] : Mem Nat) 0 2 (0 + 2) 2
      (fun a b => decide (a < b)) ∧
    Buffer.len ⟨4, 0, 0⟩ < max 2 2 - block_swap_length ([1, 3, 2, 4] : Mem Nat) 0 2 (0 + 2) 2
      (fun a b => decide (a < b)) ∧
    (⟨4, 0, 0⟩ : Buffer) = ⟨4, 0, 0⟩ ∧ ([1, 3, 2, 4] : Mem Nat) = [1, 3, 2, 4] :=
  (merge_false_characterization ⟨4, 0, 0⟩ ([1, 3, 2, 4] : Mem Nat) 0 2 2
    (fun a b => decide (a < b))).1 ⟨4, 0, 0⟩ [1, 3, 2, 4] (by decide)

/-! Insertion sort of dust.rs and the buffer resort of buffer.rs. -/

/-- Embeds the inner while loop of dust.rs insert_sort: while the hole
position p is above s + 1 and the moved value is less than the element two
slots below, shift those two elements up and move the hole down by two.  The
position shrinks by two per pass so fuel p dominates the iteration count. -/
def insert_sort_shift (s : Nat) (v : α) (less : α → α → Bool) :
    Nat → Mem α → Nat → Mem α × Nat
  | 0, m, p => (m, p)
  | fuel + 1, m, p =>
      if s + 1 < p ∧ less v (rd m (p - 2)) = true then
        let m1 := wr m p (rd m (p - 1))
        let m2 := wr m1 (p - 1) (rd m1 (p - 2))
        insert_sort_shift s v less fuel m2 (p - 2)
      else (m, p)

/-- Embeds one iteration of the outer loop of dust.rs insert_sort: lift the
element at s + i into the hole, run the two stride shift, take the final
single step guarded by one comparison, and let the hole drop put the lifted
value back. -/
def insert_sort_step (m : Mem α) (s i : Nat) (less : α → α → Bool) : Mem α :=
  let v := rd m (s + i)
  let t := insert_sort_shift s v less (s + i) m (s + i)
  if s < t.2 then
    let odd := less v (rd t.1 (t.2 - 1))
    let m2 := wr t.1 t.2 (rd t.1 (t.2 - 1))
    wr m2 (t.2 - conditional 0 1 odd) v
  else wr t.1 t.2 v

/-- Embeds dust.rs insert_sort(s, i, n): insertion sort the region of n
elements at s assuming the first i elements are already sorted. -/
def insert_sort (m : Mem α) (s i n : Nat) (less : α → α → Bool) : Mem α :=
  (List.range' i (n - i)).foldl (fun mm j => insert_sort_step mm s j less) m

/-- Embeds the local MIN_BINARY_INSERT constant of buffer.rs Buffer sort. -/
def MIN_BINARY_INSERT : Nat := 128

/-- Embeds buffer.rs Buffer sort(less): insertion sort the first unsorted
elements; above the binary insertion threshold, seed with an insertion sort of
the first 128 and binary insert the rest.  The Rust method takes the buffer by
mutable reference but assigns none of its fields, so the returned buffer
equals the argument. -/
def Buffer.sort (b : Buffer) (m : Mem α) (less : α → α → Bool) : Buffer × Mem α :=
  if MIN_BINARY_INSERT < b.unsorted then
    let m1 := insert_sort m b.start 1 MIN_BINARY_INSERT less
    let m2 := (List.range' MIN_BINARY_INSERT (b.unsorted - MIN_BINARY_INSERT)).foldl
      (fun mm i =>
        insert_left mm (b.start + i)
          (i - search_right mm b.start i (rd mm (b.start + i)) less)) m1
    (b, m2)
  else (b, insert_sort m b.start 1 b.unsorted less)

/-! Strict weak orders over a boolean predicate and list level facts about
stable upper bound insertion, used to reason about insert_sort. -/

/-- A strict weak order packaged over the boolean predicate the sort consumes:
irreflexive, transitive, and with transitive complement (the last property is
the transitivity of the derived total preorder, equivalent to the usual
transitivity of incomparability requirement). -/
structure IsSWO (less : α → α → Bool) : Prop where
  irrefl : ∀ a, less a a = false
  lt_trans : ∀ a b c, less a b = true → less b c = true → less a c = true
  nlt_trans : ∀ a b c, less a b = false → less b c = false → less a c = false

theorem IsSWO.asymm {less : α → α → Bool} (h : IsSWO less) (a b : α)
    (hab : less a b = true) : less b a = false := by
  rcases Bool.eq_false_or_eq_true (less b a) with h0 | h0
  · have := h.lt_trans a b a hab h0
    rw [h.irrefl a] at this
    exact absurd this (by simp)
  · exact h0

theorem IsSWO.lt_of_lt_of_nlt {less : α → α → Bool} (h : IsSWO less) (a b c : α)
    (hab : less a b = true) (hcb : less c b = false) : less a c = true := by
  rcases Bool.eq_false_or_eq_true (less a c) with h0 | h0
  · exact h0
  · have := h.nlt_trans a c b h0 hcb
    rw [hab] at this
    exact absurd this (by simp)

/-- Non descending under less: no adjacent pair is inverted. -/
def sortedLe (less : α → α → Bool) (l : List α) : Prop :=
  List.Chain' (fun x y => less y x = false) l

theorem sortedLe_pairwise {less : α → α → Bool} (h : IsSWO less) {l : List α}
    (hl : sortedLe less l) : l.Pairwise (fun x y => less y x = false) := by
  haveI : IsTrans α (fun x y : α => less y x = false) :=
    ⟨fun x y z hxy hyz => h.nlt_trans z y x hyz hxy⟩
  exact List.chain'_iff_pairwise.mp hl

theorem sortedLe_getD {less : α → α → Bool} {l : List α} (hl : sortedLe less l)
    (t : Nat) (ht : t + 1 < l.length) :
    less (l.getD (t + 1) default) (l.getD t default) = false := by
  have h2 := List.chain'_iff_get.mp hl t (by omega)
  rw [List.getD_eq_getElem l default ht,
    List.getD_eq_getElem l default (by omega : t < l.length)]
  simpa using h2

theorem sortedLe_getD_le {less : α → α → Bool} (h : IsSWO less) {l : List α}
    (hl : sortedLe less l) (a b : Nat) (hab : a ≤ b) (hb : b < l.length) :
    less (l.getD b default) (l.getD a default) = false := by
  induction b with
  | zero =>
      have : a = 0 := by omega
      subst this
      exact h.irrefl _
  | succ b ih =>
      rcases Nat.lt_or_ge a (b + 1) with hlt | hge
      · have hstep := sortedLe_getD hl b hb
        have hprev := ih (by omega) (by omega)
        exact h.nlt_trans _ _ _ hstep hprev
      · have : a = b + 1 := by omega
        subst this
        exact h.irrefl _

theorem getD_mem {l : List α} {j : Nat} (hj : j < l.length) :
    l.getD j default ∈ l := by
  rw [List.getD_eq_getElem l default hj]
  exact List.getElem_mem hj

/-- Stable upper bound insertion: place v before the first strictly greater
element.  This is the list level effect of one round of insert_sort. -/
def ins_ub (less : α → α → Bool) (v : α) : List α → List α
  | [] => [v]
  | b :: l => if less v b then v :: b :: l else b :: ins_ub less v l

theorem ins_ub_perm (less : α → α → Bool) (v : α) (l : List α) :
    (ins_ub less v l).Perm (v :: l) := by
  induction l with
  | nil => exact List.Perm.refl _
  | cons b l ih =>
      simp only [ins_ub]
      split
      · exact List.Perm.refl _
      · exact (ih.cons b).trans (List.Perm.swap v b l)

theorem ins_ub_length (less : α → α → Bool) (v : α) (l : List α) :
    (ins_ub less v l).length = l.length + 1 := by
  have := (ins_ub_perm less v l).length_eq
  simpa using this

theorem ins_ub_sorted {less : α → α → Bool} (h : IsSWO less) (v : α) {l : List α}
    (hl : sortedLe less l) : sortedLe less (ins_ub less v l) := by
  induction l with
  | nil => exact List.chain'_singleton v
  | cons b l ih =>
      simp only [ins_ub]
      by_cases hvb : less v b = true
      · rw [if_pos hvb]
        exact List.Chain'.cons (h.asymm v b hvb) hl
      · rw [if_neg hvb]
        have hvb' : less v b = false := by
          rcases Bool.eq_false_or_eq_true (less v b) with h0 | h0
          · exact absurd h0 hvb
          · exact h0
        have hl' : sortedLe less l := hl.tail
        have hin := ih hl'
        cases l with
        | nil =>
            simp only [ins_ub]
            exact List.chain'_pair.mpr hvb'
        | cons c l' =>
            simp only [ins_ub] at hin ⊢
            by_cases hvc : less v c = true
            · rw [if_pos hvc] at hin ⊢
              exact List.Chain'.cons hvb' hin
            · rw [if_neg hvc] at hin ⊢
              exact List.Chain'.cons (List.chain'_cons.mp hl).1 hin

theorem ins_ub_filter {less : α → α → Bool} (h : IsSWO less) (v x : α) {l : List α}
    (hl : sortedLe less l) :
    (ins_ub less v l).filter (fun y => !less x y && !less y x) =
      l.filter (fun y => !less x y && !less y x) ++
        (if (!less x v && !less v x) = true then [v] else []) := by
  induction l with
  | nil =>
      simp only [ins_ub, List.filter_cons, List.filter_nil]
      split
      · simp
      · simp
  | cons b l ih =>
      simp only [ins_ub]
      by_cases hvb : less v b = true
      · rw [if_pos hvb]
        by_cases hx : (!less x v && !less v x) = true
        · rw [if_pos hx]
          have hxv : less x v = false ∧ less v x = false := by
            simp only [Bool.and_eq_true, Bool.not_eq_true'] at hx
            exact hx
          have hnil : (b :: l).filter (fun y => !less x y && !less y x) = [] := by
            rw [List.filter_eq_nil_iff]
            intro e he hpe
            have hpe' : less x e = false ∧ less e x = false := by
              simp only [Bool.and_eq_true, Bool.not_eq_true'] at hpe
              exact hpe
            have hve : less v e = true := by
              rcases List.mem_cons.mp he with rfl | hel
              · exact hvb
              · have hbe : less e b = false := by
                  have hp := sortedLe_pairwise h hl
                  exact (List.pairwise_cons.mp hp).1 e hel
                exact h.lt_of_lt_of_nlt v b e hvb hbe
            have : less v e = false := h.nlt_trans v x e hxv.2 hpe'.1
            rw [hve] at this
            exact absurd this (by simp)
          rw [List.filter_cons, if_pos hx, hnil]
          simp [hnil]
        · rw [if_neg hx, List.filter_cons, if_neg hx]
          simp
      · rw [if_neg hvb]
        have hl' : sortedLe less l := hl.tail
        rw [List.filter_cons, List.filter_cons, ih hl']
        split
        · simp
        · simp

theorem getD_take {l : List α} {a t : Nat} (ht : t < a) :
    (l.take a).getD t default = l.getD t default := by
  rw [List.getD_eq_getElem?_getD, List.getD_eq_getElem?_getD, List.getElem?_take, if_pos ht]

theorem getD_drop {l : List α} {a t : Nat} :
    (l.drop a).getD t default = l.getD (a + t) default := by
  rw [List.getD_eq_getElem?_getD, List.getD_eq_getElem?_getD, List.getElem?_drop]

theorem ins_ub_splice {less : α → α → Bool} (h : IsSWO less) (v : α) :
    ∀ (l : List α) (q : Nat), sortedLe less l → q ≤ l.length →
      (∀ j, q ≤ j → j < l.length → less v (l.getD j default) = true) →
      (q = 0 ∨ less v (l.getD (q - 1) default) = false) →
      ins_ub less v l = l.take q ++ v :: l.drop q := by
  intro l
  induction l with
  | nil =>
      intro q _ hq _ _
      have hq0 : q = 0 := by simpa using hq
      subst hq0
      rfl
  | cons b l ih =>
      intro q hl hq hA hB
      cases q with
      | zero =>
          have hvb : less v b = true := by
            have := hA 0 (by omega) (by simp)
            simpa using this
          simp only [ins_ub, if_pos hvb]
          rfl
      | succ q =>
          have hvb : less v b = false := by
            rcases hB with h0 | h0
            · omega
            · cases q with
              | zero => simpa using h0
              | succ q' =>
                  have hmem : (b :: l).getD (q' + 1) default ∈ b :: l := by
                    apply getD_mem
                    omega
                  have hrel : less ((b :: l).getD (q' + 1) default) b = false := by
                    have := sortedLe_getD_le h hl 0 (q' + 1) (by omega) (by omega)
                    simpa using this
                  have := h.nlt_trans v ((b :: l).getD (q' + 1) default) b
                    (by simpa using h0) hrel
                  exact this
          simp only [ins_ub, if_neg (by simp [hvb] : ¬ less v b = true)]
          have hrec := ih q hl.tail (by simpa using hq)
            (by
              intro j hj hjl
              have := hA (j + 1) (by omega) (by simpa using Nat.add_lt_add_right hjl 1)
              simpa using this)
            (by
              cases q with
              | zero => exact Or.inl rfl
              | succ q' =>
                  right
                  rcases hB with h0 | h0
                  · omega
                  · simpa using h0)
          rw [hrec]
          rfl

/-! Memory level correctness of insert_sort. -/

theorem seg_eq_list {m : Mem α} {s n : Nat} {L : List α} (h : s + n ≤ m.length)
    (hL : L.length = n) (hp : ∀ t, t < n → rd m (s + t) = L.getD t default) :
    seg m s n = L := by
  apply List.ext_getElem
  · rw [seg_length h, hL]
  · intro j hj1 hj2
    have hjn : j < n := by rw [seg_length h] at hj1; exact hj1
    rw [seg_getElem hjn h hj1, ← List.getD_eq_getElem L default hj2]
    exact hp j hjn

theorem rd_of_seg {m : Mem α} {s n : Nat} {L : List α} (h : s + n ≤ m.length)
    (he : seg m s n = L) (t : Nat) (ht : t < n) : rd m (s + t) = L.getD t default := by
  have hg : t < (seg m s n).length := by rw [seg_length h]; exact ht
  have := seg_getElem ht h hg
  rw [← this, ← he]
  rw [List.getD_eq_getElem _ default hg]

theorem rd_eq_seg_getD (m : Mem α) (s n : Nat) (h : s + n ≤ m.length) (t : Nat)
    (ht : t < n) : rd m (s + t) = (seg m s n).getD t default :=
  rd_of_seg h rfl t ht

theorem getD_insert_at {L : List α} {q : Nat} (v : α) (hq : q ≤ L.length) (t : Nat) :
    (L.take q ++ v :: L.drop q).getD t default =
      if t < q then L.getD t default
      else if t = q then v else L.getD (t - 1) default := by
  have hlt : (L.take q).length = q := by
    rw [List.length_take]
    omega
  rcases Nat.lt_trichotomy t q with hc | hc | hc
  · rw [if_pos hc, List.getD_eq_getElem?_getD, List.getElem?_append,
      if_pos (by rw [hlt]; omega), ← List.getD_eq_getElem?_getD, getD_take hc]
  · subst hc
    rw [if_neg (by omega), if_pos rfl, List.getD_eq_getElem?_getD,
      List.getElem?_append_right (by rw [hlt]), hlt]
    simp
  · rw [if_neg (by omega), if_neg (by omega), List.getD_eq_getElem?_getD,
      List.getElem?_append_right (by rw [hlt]; omega), hlt]
    have : t - q = (t - q - 1) + 1 := by omega
    rw [this]
    simp only [List.getElem?_cons_succ]
    rw [← List.getD_eq_getElem?_getD, getD_drop]
    congr 1
    omega

theorem insert_sort_shift_spec {less : α → α → Bool} (h : IsSWO less) (s : Nat) (v : α)
    (P : List α) (hP : sortedLe less P) :
    ∀ fuel j (m : Mem α), j ≤ P.length → s + P.length < m.length → j ≤ 2 * fuel →
      seg m s j = P.take j →
      seg m (s + j + 1) (P.length - j) = P.drop j →
      (∀ idx, j ≤ idx → idx < P.length → less v (P.getD idx default) = true) →
      ∃ j', j' ≤ j ∧
        (insert_sort_shift s v less fuel m (s + j)).2 = s + j' ∧
        (insert_sort_shift s v less fuel m (s + j)).1.length = m.length ∧
        seg (insert_sort_shift s v less fuel m (s + j)).1 s j' = P.take j' ∧
        seg (insert_sort_shift s v less fuel m (s + j)).1 (s + j' + 1) (P.length - j') =
          P.drop j' ∧
        (∀ idx, j' ≤ idx → idx < P.length → less v (P.getD idx default) = true) ∧
        (j' ≤ 1 ∨ less v (P.getD (j' - 2) default) = false) ∧
        (∀ k, k < s ∨ s + P.length + 1 ≤ k →
          rd (insert_sort_shift s v less fuel m (s + j)).1 k = rd m k) := by
  intro fuel
  induction fuel with
  | zero =>
      intro j m hjP hsm hj2 hseg1 hseg2 hA
      have hj0 : j = 0 := by omega
      subst hj0
      exact ⟨0, by omega, rfl, rfl, hseg1, hseg2, hA, by omega, fun k _ => rfl⟩
  | succ fuel ih =>
      intro j m hjP hsm hj2 hseg1 hseg2 hA
      by_cases hcond : s + 1 < s + j ∧ less v (rd m (s + j - 2)) = true
      · have hj2' : 2 ≤ j := by omega
        have hsjle : s + j ≤ s + P.length := by omega
        have hrd2 : rd m (s + j - 2) = P.getD (j - 2) default := by
          have := rd_of_seg (by omega) hseg1 (j - 2) (by omega)
          rw [getD_take (by omega)] at this
          rw [show s + j - 2 = s + (j - 2) by omega]
          exact this
        have hrd1 : rd m (s + j - 1) = P.getD (j - 1) default := by
          have := rd_of_seg (by omega) hseg1 (j - 1) (by omega)
          rw [getD_take (by omega)] at this
          rw [show s + j - 1 = s + (j - 1) by omega]
          exact this
        have hstep : insert_sort_shift s v less (fuel + 1) m (s + j) =
            insert_sort_shift s v less fuel
              (wr (wr m (s + j) (rd m (s + j - 1)))
                (s + j - 1) (rd (wr m (s + j) (rd m (s + j - 1))) (s + j - 2)))
              (s + j - 2) := by
          simp only [insert_sort_shift, if_pos hcond]
        set m1 := wr m (s + j) (rd m (s + j - 1)) with hm1def
        have hm1len : m1.length = m.length := wr_length ..
        have hm1rd2 : rd m1 (s + j - 2) = P.getD (j - 2) default := by
          rw [hm1def, rd_wr_ne _ (by omega), hrd2]
        set m2 := wr m1 (s + j - 1) (rd m1 (s + j - 2)) with hm2def
        have hm2len : m2.length = m.length := by rw [hm2def, wr_length, hm1len]
        -- reads of m2 in terms of the original memory and P
        have hm2_low : ∀ t, t < j - 2 → rd m2 (s + t) = P.getD t default := by
          intro t ht
          rw [hm2def, rd_wr_ne _ (by omega), hm1def, rd_wr_ne _ (by omega)]
          have := rd_of_seg (by omega) hseg1 t (by omega)
          rwa [getD_take (by omega)] at this
        have hm2_j1 : rd m2 (s + j - 1) = P.getD (j - 2) default := by
          rw [hm2def, rd_wr_self (by omega) _, hm1rd2]
        have hm2_j : rd m2 (s + j) = P.getD (j - 1) default := by
          rw [hm2def, rd_wr_ne _ (by omega), hm1def, rd_wr_self (by omega) _, hrd1]
        have hm2_high : ∀ u, u < P.length - j → rd m2 (s + j + 1 + u) = P.getD (j + u) default := by
          intro u hu
          rw [hm2def, rd_wr_ne _ (by omega), hm1def, rd_wr_ne _ (by omega)]
          have := rd_of_seg (by omega) hseg2 u hu
          rwa [getD_drop] at this
        -- the invariants at index j - 2
        have hseg1' : seg m2 s (j - 2) = P.take (j - 2) := by
          apply seg_eq_list (by omega)
          · rw [List.length_take]
            omega
          · intro t ht
            rw [hm2_low t ht, getD_take ht]
        have hseg2' : seg m2 (s + (j - 2) + 1) (P.length - (j - 2)) = P.drop (j - 2) := by
          apply seg_eq_list (by omega)
          · rw [List.length_drop]
          · intro t ht
            rw [getD_drop]
            rcases Nat.lt_trichotomy t 1 with hc | hc | hc
            · have ht0 : t = 0 := by omega
              subst ht0
              rw [show s + (j - 2) + 1 + 0 = s + j - 1 by omega, hm2_j1]
              congr 1 <;> omega
            · subst hc
              rw [show s + (j - 2) + 1 + 1 = s + j by omega, hm2_j]
              congr 1 <;> omega
            · rw [show s + (j - 2) + 1 + t = s + j + 1 + (t - 2) by omega,
                hm2_high (t - 2) (by omega)]
              congr 1 <;> omega
        have hA' : ∀ idx, j - 2 ≤ idx → idx < P.length → less v (P.getD idx default) = true := by
          intro idx h1 h2
          rcases Nat.lt_or_ge idx j with hlt | hge
          · rcases Nat.lt_or_ge idx (j - 1) with hlt2 | hge2
            · have : idx = j - 2 := by omega
              subst this
              rw [← hrd2]
              exact hcond.2
            · have : idx = j - 1 := by omega
              subst this
              have hrel : less (P.getD (j - 1) default) (P.getD (j - 2) default) = false := by
                have := sortedLe_getD hP (j - 2) (by omega)
                rwa [show j - 2 + 1 = j - 1 by omega] at this
              exact h.lt_of_lt_of_nlt v _ _ (hrd2 ▸ hcond.2) hrel
          · exact hA idx hge h2
        obtain ⟨j', hj'le, hpos, hlen, hs1, hs2, hA2, hexit, huntouch⟩ :=
          ih (j - 2) m2 (by omega) (by omega) (by omega) hseg1' hseg2' hA'
        rw [show s + (j - 2) = s + j - 2 by omega] at hpos hlen hs1 hs2 huntouch
        refine ⟨j', by omega, ?_, ?_, ?_, ?_, hA2, hexit, ?_⟩
        · rw [hstep]
          exact hpos
        · rw [hstep, hlen, hm2len]
        · rw [hstep]
          exact hs1
        · rw [hstep]
          exact hs2
        · intro k hk
          rw [hstep, huntouch k hk, hm2def, rd_wr_ne _ (by omega), hm1def,
            rd_wr_ne _ (by omega)]
      · have hres : insert_sort_shift s v less (fuel + 1) m (s + j) = (m, s + j) := by
          simp only [insert_sort_shift, if_neg hcond]
        refine ⟨j, le_refl j, by rw [hres], by rw [hres], by rw [hres]; exact hseg1,
          by rw [hres]; exact hseg2, hA, ?_, by intro k _; rw [hres]⟩
        by_cases hj1 : j ≤ 1
        · exact Or.inl hj1
        · right
          have hnb : less v (rd m (s + j - 2)) = false := by
            rcases Bool.eq_false_or_eq_true (less v (rd m (s + j - 2))) with h0 | h0
            · exact absurd ⟨by omega, h0⟩ hcond
            · exact h0
          have hrd2 : rd m (s + j - 2) = P.getD (j - 2) default := by
            have := rd_of_seg (by omega) hseg1 (j - 2) (by omega)
            rw [getD_take (by omega)] at this
            rw [show s + j - 2 = s + (j - 2) by omega]
            exact this
          rwa [hrd2] at hnb

theorem insert_sort_step_spec {less : α → α → Bool} (h : IsSWO less) (m : Mem α) (s i : Nat)
    (hss : s + i < m.length) (hsort : sortedLe less (seg m s i)) :
    (insert_sort_step m s i less).length = m.length ∧
    seg (insert_sort_step m s i less) s (i + 1) = ins_ub less (rd m (s + i)) (seg m s i) ∧
    (∀ k, k < s ∨ s + i + 1 ≤ k → rd (insert_sort_step m s i less) k = rd m k) := by
  have hPlen : (seg m s i).length = i := seg_length (by omega)
  obtain ⟨j', hj'le, hpos, hlen, hs1, hs2, hA2, hexit, huntouch⟩ :=
    insert_sort_shift_spec h s (rd m (s + i)) (seg m s i) hsort (s + i) i m
      (by omega) (by omega) (by omega)
      ((List.take_of_length_le (by omega)).symm)
      (by
        rw [hPlen, Nat.sub_self, List.drop_of_length_le (by omega)]
        rfl)
      (by
        intro idx h1 h2
        omega)
  rw [hPlen] at hs2 huntouch
  set t := insert_sort_shift s (rd m (s + i)) less (s + i) m (s + i) with htdef
  have hres : insert_sort_step m s i less =
      (if s < t.2 then
        wr (wr t.1 t.2 (rd t.1 (t.2 - 1)))
          (t.2 - conditional 0 1 (less (rd m (s + i)) (rd t.1 (t.2 - 1)))) (rd m (s + i))
      else wr t.1 t.2 (rd m (s + i))) := rfl
  have hlow : ∀ u, u < j' → rd t.1 (s + u) = (seg m s i).getD u default := by
    intro u hu
    have := rd_of_seg (by omega) hs1 u hu
    rwa [getD_take hu] at this
  have hhigh : ∀ u, u < i - j' → rd t.1 (s + j' + 1 + u) = (seg m s i).getD (j' + u) default := by
    intro u hu
    have := rd_of_seg (by omega) hs2 u hu
    rwa [getD_drop] at this
  rcases Nat.eq_zero_or_pos j' with hj0 | hj1
  · subst hj0
    rw [hpos] at hres
    rw [if_neg (by omega)] at hres
    have hq : ins_ub less (rd m (s + i)) (seg m s i) =
        (seg m s i).take 0 ++ rd m (s + i) :: (seg m s i).drop 0 :=
      ins_ub_splice h (rd m (s + i)) (seg m s i) 0 hsort (by omega)
        (fun idx h1 h2 => hA2 idx (by omega) h2) (Or.inl rfl)
    refine ⟨?_, ?_, ?_⟩
    · rw [hres, wr_length, hlen]
    · rw [hres, hq]
      apply seg_eq_list (by rw [wr_length, hlen]; omega)
      · rw [List.length_append, List.length_take, List.length_cons, List.length_drop]
        omega
      · intro u hu
        rw [getD_insert_at _ (by omega) u]
        rcases Nat.eq_zero_or_pos u with hu0 | hu1
        · subst hu0
          rw [if_neg (by omega), if_pos rfl]
          rw [Nat.add_zero, rd_wr_self (by omega) _]
        · rw [if_neg (by omega), if_neg (by omega)]
          rw [rd_wr_ne _ (by omega)]
          have := hhigh (u - 1) (by omega)
          rw [show s + 0 + 1 + (u - 1) = s + u by omega] at this
          rw [this]
          congr 1
          omega
    · intro k hk
      rw [hres, rd_wr_ne _ (by omega), huntouch k (by omega)]
  · rw [hpos] at hres
    rw [if_pos (by omega)] at hres
    have hv1 : rd t.1 (s + j' - 1) = (seg m s i).getD (j' - 1) default := by
      have := hlow (j' - 1) (by omega)
      rwa [show s + (j' - 1) = s + j' - 1 by omega] at this
    rcases Bool.eq_false_or_eq_true (less (rd m (s + i)) (rd t.1 (s + j' - 1))) with hodd | hodd
    · -- odd is true: the value moves one more slot down, to j' - 1
      rw [hodd] at hres
      simp only [conditional_true] at hres
      have hq : ins_ub less (rd m (s + i)) (seg m s i) =
          (seg m s i).take (j' - 1) ++ rd m (s + i) :: (seg m s i).drop (j' - 1) := by
        apply ins_ub_splice h (rd m (s + i)) (seg m s i) (j' - 1) hsort (by omega)
        · intro idx h1 h2
          rw [hPlen] at h2
          rcases Nat.lt_or_ge idx j' with hlt | hge
          · have : idx = j' - 1 := by omega
            subst this
            rw [← hv1]
            exact hodd
          · exact hA2 idx hge (by rwa [hPlen])
        · rcases Nat.lt_or_ge j' 2 with hc | hc
          · exact Or.inl (by omega)
          · right
            rcases hexit with he | he
            · omega
            · rwa [show j' - 2 = j' - 1 - 1 by omega] at he
      refine ⟨?_, ?_, ?_⟩
      · rw [hres, wr_length, wr_length, hlen]
      · rw [hres, hq]
        apply seg_eq_list (by rw [wr_length, wr_length, hlen]; omega)
        · rw [List.length_append, List.length_take, List.length_cons, List.length_drop]
          omega
        · intro u hu
          rw [getD_insert_at _ (by omega) u]
          rcases Nat.lt_trichotomy u (j' - 1) with hc | hc | hc
          · rw [if_pos hc, rd_wr_ne _ (by omega), rd_wr_ne _ (by omega)]
            exact hlow u (by omega)
          · subst hc
            rw [if_neg (by omega), if_pos rfl,
              show s + (j' - 1) = s + j' - 1 by omega,
              rd_wr_self (by rw [wr_length, hlen]; omega) _]
          · rw [if_neg (by omega), if_neg (by omega), rd_wr_ne _ (by omega)]
            rcases Nat.eq_or_lt_of_le (show j' ≤ u by omega) with hc2 | hc2
            · rw [← hc2, rd_wr_self (by rw [hlen]; omega) _, hv1]
            · rw [rd_wr_ne _ (by omega)]
              have := hhigh (u - j' - 1) (by omega)
              rw [show s + j' + 1 + (u - j' - 1) = s + u by omega] at this
              rw [this]
              congr 1
              omega
      · intro k hk
        rw [hres, rd_wr_ne _ (by omega), rd_wr_ne _ (by omega), huntouch k (by omega)]
    · -- odd is false: the value stays at j'; the clobbering write is undone
      rw [hodd] at hres
      simp only [conditional_false, Nat.sub_zero] at hres
      have hq : ins_ub less (rd m (s + i)) (seg m s i) =
          (seg m s i).take j' ++ rd m (s + i) :: (seg m s i).drop j' := by
        apply ins_ub_splice h (rd m (s + i)) (seg m s i) j' hsort (by omega)
        · intro idx h1 h2
          exact hA2 idx h1 h2
        · right
          rwa [hv1] at hodd
      refine ⟨?_, ?_, ?_⟩
      · rw [hres, wr_length, wr_length, hlen]
      · rw [hres, hq]
        apply seg_eq_list (by rw [wr_length, wr_length, hlen]; omega)
        · rw [List.length_append, List.length_take, List.length_cons, List.length_drop]
          omega
        · intro u hu
          rw [getD_insert_at _ (by omega) u]
          rcases Nat.lt_trichotomy u j' with hc | hc | hc
          · rw [if_pos hc, rd_wr_ne _ (by omega), rd_wr_ne _ (by omega)]
            exact hlow u (by omega)
          · subst hc
            rw [if_neg (by omega), if_pos rfl,
              rd_wr_self (by rw [wr_length, hlen]; omega) _]
          · rw [if_neg (by omega), if_neg (by omega), rd_wr_ne _ (by omega),
              rd_wr_ne _ (by omega)]
            have := hhigh (u - j' - 1) (by omega)
            rw [show s + j' + 1 + (u - j' - 1) = s + u by omega] at this
            rw [this]
            congr 1
            omega
      · intro k hk
        rw [hres, rd_wr_ne _ (by omega), rd_wr_ne _ (by omega), huntouch k (by omega)]

theorem foldl_ins_ub_sorted {less : α → α → Bool} (h : IsSWO less) :
    ∀ (rest acc : List α), sortedLe less acc →
      sortedLe less (rest.foldl (fun a v => ins_ub less v a) acc) := by
  intro rest
  induction rest with
  | nil => exact fun acc ha => ha
  | cons v rest ih =>
      intro acc ha
      exact ih _ (ins_ub_sorted h v ha)

theorem foldl_ins_ub_perm (less : α → α → Bool) :
    ∀ (rest acc : List α),
      (rest.foldl (fun a v => ins_ub less v a) acc).Perm (acc ++ rest) := by
  intro rest
  induction rest with
  | nil => simp
  | cons v rest ih =>
      intro acc
      simp only [List.foldl_cons]
      refine (ih _).trans ?_
      have hp1 : (ins_ub less v acc ++ rest).Perm ((v :: acc) ++ rest) :=
        (ins_ub_perm less v acc).append_right rest
      have hp2 : (acc ++ v :: rest).Perm (v :: (acc ++ rest)) := List.perm_middle
      exact hp1.trans hp2.symm

theorem foldl_ins_ub_filter {less : α → α → Bool} (h : IsSWO less) (x : α) :
    ∀ (rest acc : List α), sortedLe less acc →
      (rest.foldl (fun a v => ins_ub less v a) acc).filter
          (fun y => !less x y && !less y x) =
        acc.filter (fun y => !less x y && !less y x) ++
          rest.filter (fun y => !less x y && !less y x) := by
  intro rest
  induction rest with
  | nil => simp
  | cons v rest ih =>
      intro acc ha
      simp only [List.foldl_cons]
      rw [ih _ (ins_ub_sorted h v ha), ins_ub_filter h v x ha, List.filter_cons]
      split
      · simp
      · simp

theorem insert_sort_fold_spec {less : α → α → Bool} (h : IsSWO less) :
    ∀ (cnt : Nat) (m : Mem α) (s k : Nat), s + k + cnt ≤ m.length →
      sortedLe less (seg m s k) →
      (((List.range' k cnt).foldl (fun mm j => insert_sort_step mm s j less) m).length =
          m.length ∧
       seg ((List.range' k cnt).foldl (fun mm j => insert_sort_step mm s j less) m)
           s (k + cnt) =
         (seg m (s + k) cnt).foldl (fun acc v => ins_ub less v acc) (seg m s k) ∧
       (∀ q, q < s ∨ s + k + cnt ≤ q →
         rd ((List.range' k cnt).foldl (fun mm j => insert_sort_step mm s j less) m) q =
           rd m q)) := by
  intro cnt
  induction cnt with
  | zero =>
      intro m s k hb hs
      refine ⟨rfl, ?_, fun q _ => rfl⟩
      simp [seg]
  | succ cnt ih =>
      intro m s k hb hs
      have hrange : List.range' k (cnt + 1) = k :: List.range' (k + 1) cnt :=
        List.range'_succ k cnt 1
      obtain ⟨hlen1, hseg1, hun1⟩ := insert_sort_step_spec h m s k (by omega) hs
      set m1 := insert_sort_step m s k less with hm1def
      have hrest : seg m1 (s + (k + 1)) cnt = seg m (s + (k + 1)) cnt := by
        apply seg_eq_of_rd (by omega) (by omega)
        intro j hj
        exact hun1 _ (by omega)
      have hsort1 : sortedLe less (seg m1 s (k + 1)) := by
        rw [hseg1]
        exact ins_ub_sorted h _ hs
      obtain ⟨hlen2, hseg2, hun2⟩ := ih m1 s (k + 1) (by omega) hsort1
      have hfold : (List.range' k (cnt + 1)).foldl
          (fun mm j => insert_sort_step mm s j less) m =
          (List.range' (k + 1) cnt).foldl (fun mm j => insert_sort_step mm s j less) m1 := by
        rw [hrange]
        rfl
      refine ⟨?_, ?_, ?_⟩
      · rw [hfold, hlen2, hlen1]
      · rw [hfold, show k + (cnt + 1) = (k + 1) + cnt by omega, hseg2, hseg1, hrest]
        have hsegcons : seg m (s + k) (cnt + 1) = rd m (s + k) :: seg m (s + k + 1) cnt :=
          seg_cons (by omega)
        rw [hsegcons]
        simp only [List.foldl_cons]
        rw [show s + (k + 1) = s + k + 1 by omega]
      · intro q hq
        rw [hfold, hun2 q (by omega), hun1 q (by omega)]

/-- Strict weak order instance for the natural order on Nat, used by concrete
witnesses. -/
theorem nat_blt_swo : IsSWO (fun a b : Nat => decide (a < b)) := by
  constructor
  · intro a
    simp
  · intro a b c hab hbc
    simp only [decide_eq_true_eq] at hab hbc ⊢
    omega
  · intro a b c hab hbc
    simp only [decide_eq_false_iff_not] at hab hbc ⊢
    omega

/-- Claim C9: insert_sort(s, i, n) with 1 at most i at most n and a sorted
first i elements leaves the region non descending, a permutation of the
original contents, and stable: for every reference element x, the subsequence
of elements incomparable with x is unchanged, which is the standard
formulation of never exchanging equal elements.  The rest of the memory is
untouched. -/
theorem insert_sort_correct (less : α → α → Bool) (h : IsSWO less) (m : Mem α)
    (s i n : Nat) (h1 : 1 ≤ i) (h2 : i ≤ n) (hb : s + n ≤ m.length)
    (hs : sortedLe less (seg m s i)) :
    sortedLe less (seg (insert_sort m s i n less) s n) ∧
    (seg (insert_sort m s i n less) s n).Perm (seg m s n) ∧
    (∀ x, (seg (insert_sort m s i n less) s n).filter (fun y => !less x y && !less y x) =
      (seg m s n).filter (fun y => !less x y && !less y x)) ∧
    (∀ k, k < s ∨ s + n ≤ k → rd (insert_sort m s i n less) k = rd m k) ∧
    (insert_sort m s i n less).length = m.length := by
  obtain ⟨hlen, hseg, hun⟩ := insert_sort_fold_spec h (n - i) m s i (by omega) hs
  have hISdef : insert_sort m s i n less =
      (List.range' i (n - i)).foldl (fun mm j => insert_sort_step mm s j less) m := rfl
  rw [show i + (n - i) = n by omega] at hseg
  rw [show s + i + (n - i) = s + n by omega] at hun
  have hsplit : seg m s n = seg m s i ++ seg m (s + i) (n - i) := by
    have := seg_split m s i (n - i)
    rwa [show i + (n - i) = n by omega] at this
  refine ⟨?_, ?_, ?_, ?_, ?_⟩
  · rw [hISdef, hseg]
    exact foldl_ins_ub_sorted h _ _ hs
  · rw [hISdef, hseg, hsplit]
    exact foldl_ins_ub_perm less _ _
  · intro x
    rw [hISdef, hseg, hsplit, List.filter_append]
    exact foldl_ins_ub_filter h x _ _ hs
  · intro k hk
    rw [hISdef, hun k hk]
  · rw [hISdef, hlen]

/-- Claim C9, witness on the memory [3, 1, 2] sorted as one region with a
presorted first element. -/
theorem insert_sort_correct_witness :
    sortedLe (fun a b : Nat => decide (a < b))
      (seg (insert_sort ([3, 1, 2] : Mem Nat) 0 1 3 (fun a b => decide (a < b))) 0 3) ∧
    (seg (insert_sort ([3, 1, 2] : Mem Nat) 0 1 3 (fun a b => decide (a < b))) 0 3).Perm
      (seg ([3, 1, 2] : Mem Nat) 0 3) ∧
    (∀ x, (seg (insert_sort ([3, 1, 2] : Mem Nat) 0 1 3
        (fun a b => decide (a < b))) 0 3).filter
          (fun y => !decide (x < y) && !decide (y < x)) =
      (seg ([3, 1, 2] : Mem Nat) 0 3).filter
          (fun y => !decide (x < y) && !decide (y < x))) ∧
    (∀ k, k < 0 ∨ 0 + 3 ≤ k →
      rd (insert_sort ([3, 1, 2] : Mem Nat) 0 1 3 (fun a b => decide (a < b))) k =
        rd ([3, 1, 2] : Mem Nat) k) ∧
    (insert_sort ([3, 1, 2] : Mem Nat) 0 1 3 (fun a b => decide (a < b))).length =
      ([3, 1, 2] : Mem Nat).length :=
  insert_sort_correct (fun a b : Nat => decide (a < b)) nat_blt_swo
    ([3, 1, 2] : Mem Nat) 0 1 3 (by omega) (by omega) (by decide)
    (by
      rw [show seg ([3, 1, 2] : Mem Nat) 0 1 = [3] from rfl]
      exact List.chain'_singleton 3)

/-! Correctness of the binary insertion path of Buffer sort: lower_bound on a
partitioned predicate, the memmove based insert_left, and the fold of binary
insertions. -/

theorem lower_bound_loop_part (N : Nat) (P : Nat → Bool)
    (hdc : ∀ a b, a ≤ b → b < N → P b = true → P a = true) :
    ∀ fuel i n, n ≤ fuel → i + n ≤ N →
      (∀ j, j < i → P j = true) → (∀ j, i + n ≤ j → j < N → P j = false) →
      ((∀ j, j < lower_bound_loop P fuel i n → P j = true) ∧
       (∀ j, lower_bound_loop P fuel i n ≤ j → j < N → P j = false) ∧
       i ≤ lower_bound_loop P fuel i n ∧ lower_bound_loop P fuel i n ≤ i + n) := by
  have hzero : ∀ fuel i, lower_bound_loop P fuel i 0 = i := by
    intro fuel i
    cases fuel with
    | zero => rfl
    | succ fuel => simp [lower_bound_loop]
  intro fuel
  induction fuel with
  | zero =>
      intro i n hf hN hlow hhigh
      have hn0 : n = 0 := by omega
      subst hn0
      rw [hzero 0 i]
      exact ⟨hlow, fun j hj hjN => hhigh j (by omega) hjN, le_refl i, by omega⟩
  | succ fuel ih =>
      intro i n hf hN hlow hhigh
      by_cases hn0 : n = 0
      · subst hn0
        rw [hzero (fuel + 1) i]
        exact ⟨hlow, fun j hj hjN => hhigh j (by omega) hjN, le_refl i, by omega⟩
      · have hstep : lower_bound_loop P (fuel + 1) i n =
            lower_bound_loop P fuel (i + conditional 0 (n - n / 2) (P (i + n / 2))) (n / 2) := by
          simp only [lower_bound_loop, if_neg hn0]
        rcases Bool.eq_false_or_eq_true (P (i + n / 2)) with hP | hP
        · rw [hP, conditional_true] at hstep
          rw [hstep]
          have hlow' : ∀ j, j < i + (n - n / 2) → P j = true := by
            intro j hj
            rcases Nat.lt_or_ge j i with hc | hc
            · exact hlow j hc
            · exact hdc j (i + n / 2) (by omega) (by omega) hP
          have hwin : i + (n - n / 2) + n / 2 = i + n := by omega
          obtain ⟨c1, c2, c3, c4⟩ := ih (i + (n - n / 2)) (n / 2) (by omega)
            (by omega) hlow' (by rw [hwin]; exact hhigh)
          exact ⟨c1, c2, by omega, by omega⟩
        · rw [hP, conditional_false] at hstep
          simp only [Nat.add_zero] at hstep
          rw [hstep]
          have hhigh' : ∀ j, i + n / 2 ≤ j → j < N → P j = false := by
            intro j hj hjN
            rcases Bool.eq_false_or_eq_true (P j) with h0 | h0
            · have := hdc (i + n / 2) j hj hjN h0
              rw [hP] at this
              exact absurd this (by simp)
            · exact h0
          obtain ⟨c1, c2, c3, c4⟩ := ih i (n / 2) (by omega) (by omega) hlow hhigh'
          exact ⟨c1, c2, c3, by omega⟩

theorem search_right_part {less : α → α → Bool} (h : IsSWO less) (m : Mem α)
    (s n : Nat) (v : α) (hn : s + n ≤ m.length)
    (hsort : sortedLe less (seg m s n)) :
    search_right m s n v less ≤ n ∧
    (∀ j, j < search_right m s n v less → less v (rd m (s + j)) = false) ∧
    (∀ j, search_right m s n v less ≤ j → j < n → less v (rd m (s + j)) = true) := by
  have hrd : ∀ j, j < n → rd m (s + j) = (seg m s n).getD j default := fun j hj =>
    rd_of_seg hn rfl j hj
  have hdc : ∀ a b, a ≤ b → b < n → (!less v (rd m (s + b))) = true →
      (!less v (rd m (s + a))) = true := by
    intro a b hab hbN hb
    simp only [Bool.not_eq_true'] at hb ⊢
    rcases Bool.eq_false_or_eq_true (less v (rd m (s + a))) with h0 | h0
    · exfalso
      have hrel : less (rd m (s + b)) (rd m (s + a)) = false := by
        rw [hrd a (by omega), hrd b hbN]
        exact sortedLe_getD_le h hsort a b hab (by rw [seg_length hn]; omega)
      have := h.lt_of_lt_of_nlt v (rd m (s + a)) (rd m (s + b)) h0 hrel
      rw [hb] at this
      exact absurd this (by simp)
    · exact h0
  obtain ⟨c1, c2, c3, c4⟩ :=
    lower_bound_loop_part n (fun x => !less v (rd m (s + x))) hdc n 0 n
      (le_refl n) (by omega) (fun j hj => absurd hj (by omega))
      (fun j hj hjN => absurd hjN (by omega))
  refine ⟨by simpa using c4, ?_, ?_⟩
  · intro j hj
    have := c1 j hj
    simpa using this
  · intro j h1 h2
    have := c2 j h1 h2
    simpa using this

theorem copy_mem_spec (m : Mem α) (src dst : Nat) :
    ∀ cnt, dst + cnt ≤ m.length →
      ((copy_mem m src dst cnt).length = m.length ∧
       (∀ t, t < cnt → rd (copy_mem m src dst cnt) (dst + t) = rd m (src + t)) ∧
       (∀ k, k < dst ∨ dst + cnt ≤ k → rd (copy_mem m src dst cnt) k = rd m k)) := by
  intro cnt
  induction cnt with
  | zero =>
      intro hb
      exact ⟨rfl, fun t ht => absurd ht (by omega), fun k _ => rfl⟩
  | succ cnt ih =>
      intro hb
      have hsplit : copy_mem m src dst (cnt + 1) =
          wr (copy_mem m src dst cnt) (dst + cnt) (rd m (src + cnt)) := by
        simp only [copy_mem, List.range_succ, List.foldl_append, List.foldl_cons,
          List.foldl_nil]
      obtain ⟨ih1, ih2, ih3⟩ := ih (by omega)
      refine ⟨?_, ?_, ?_⟩
      · rw [hsplit, wr_length, ih1]
      · intro t ht
        rcases Nat.lt_or_ge t cnt with hc | hc
        · rw [hsplit, rd_wr_ne _ (by omega), ih2 t hc]
        · have : t = cnt := by omega
          subst this
          rw [hsplit, rd_wr_self (by omega) _]
      · intro k hk
        rw [hsplit, rd_wr_ne _ (by omega), ih3 k (by omega)]

theorem insert_left_spec (m : Mem α) (s cnt : Nat) (hcnt : cnt ≤ s) (hs : s < m.length) :
    ((insert_left m s cnt).length = m.length ∧
     rd (insert_left m s cnt) (s - cnt) = rd m s ∧
     (∀ t, t < cnt → rd (insert_left m s cnt) (s - cnt + 1 + t) = rd m (s - cnt + t)) ∧
     (∀ k, k < s - cnt ∨ s + 1 ≤ k → rd (insert_left m s cnt) k = rd m k)) := by
  obtain ⟨c1, c2, c3⟩ := copy_mem_spec m (s - cnt) (s + 1 - cnt) cnt (by omega)
  have hdef : insert_left m s cnt =
      wr (copy_mem m (s - cnt) (s + 1 - cnt) cnt) (s - cnt) (rd m s) := rfl
  refine ⟨?_, ?_, ?_, ?_⟩
  · rw [hdef, wr_length, c1]
  · rw [hdef, rd_wr_self (by omega) _]
  · intro t ht
    have hpos : s - cnt + 1 + t = (s + 1 - cnt) + t := by omega
    rw [hdef, rd_wr_ne _ (by omega), hpos, c2 t ht]
  · intro k hk
    rw [hdef, rd_wr_ne _ (by omega), c3 k (by omega)]

theorem binary_insert_step_spec {less : α → α → Bool} (h : IsSWO less) (m : Mem α)
    (st i : Nat) (hss : st + i < m.length) (hsort : sortedLe less (seg m st i)) :
    ((insert_left m (st + i)
        (i - search_right m st i (rd m (st + i)) less)).length = m.length ∧
     seg (insert_left m (st + i) (i - search_right m st i (rd m (st + i)) less))
         st (i + 1) =
       ins_ub less (rd m (st + i)) (seg m st i) ∧
     (∀ k, k < st ∨ st + i + 1 ≤ k →
       rd (insert_left m (st + i) (i - search_right m st i (rd m (st + i)) less)) k =
         rd m k)) := by
  obtain ⟨hub_le, hub_lo, hub_hi⟩ :=
    search_right_part h m st i (rd m (st + i)) (by omega) hsort
  set ub := search_right m st i (rd m (st + i)) less with hubdef
  obtain ⟨c1, c2, c3, c4⟩ := insert_left_spec m (st + i) (i - ub) (by omega) hss
  have hsub : st + i - (i - ub) = st + ub := by omega
  rw [hsub] at c2 c3 c4
  have hq : ins_ub less (rd m (st + i)) (seg m st i) =
      (seg m st i).take ub ++ rd m (st + i) :: (seg m st i).drop ub := by
    apply ins_ub_splice h (rd m (st + i)) (seg m st i) ub hsort
      (by rw [seg_length (by omega)]; exact hub_le)
    · intro j h1 h2
      rw [seg_length (by omega)] at h2
      have := hub_hi j h1 h2
      rwa [rd_eq_seg_getD m st i (by omega) j h2] at this
    · rcases Nat.eq_zero_or_pos ub with h0 | h0
      · exact Or.inl h0
      · right
        have := hub_lo (ub - 1) (by omega)
        rwa [rd_eq_seg_getD m st i (by omega) (ub - 1) (by omega)] at this
  refine ⟨c1, ?_, ?_⟩
  · rw [hq]
    apply seg_eq_list (by omega)
    · rw [List.length_append, List.length_take, List.length_cons, List.length_drop,
        seg_length (by omega)]
      omega
    · intro t ht
      rw [getD_insert_at _ (by rw [seg_length (by omega)]; exact hub_le) t]
      rcases Nat.lt_trichotomy t ub with hc | hc | hc
      · rw [if_pos hc, c4 (st + t) (by omega)]
        exact rd_of_seg (by omega) rfl t (by omega)
      · subst hc
        rw [if_neg (by omega), if_pos rfl, c2]
      · rw [if_neg (by omega), if_neg (by omega)]
        have := c3 (t - ub - 1) (by omega)
        rw [show st + ub + 1 + (t - ub - 1) = st + t by omega,
          show st + ub + (t - ub - 1) = st + (t - 1) by omega] at this
        rw [this]
        exact rd_of_seg (by omega) rfl (t - 1) (by omega)
  · intro k hk
    exact c4 k (by omega)

theorem binary_insert_fold_spec {less : α → α → Bool} (h : IsSWO less) (st : Nat) :
    ∀ (cnt : Nat) (m : Mem α) (k : Nat), st + k + cnt ≤ m.length →
      sortedLe less (seg m st k) →
      (((List.range' k cnt).foldl (fun mm i =>
          insert_left mm (st + i) (i - search_right mm st i (rd mm (st + i)) less))
          m).length = m.length ∧
       seg ((List.range' k cnt).foldl (fun mm i =>
          insert_left mm (st + i) (i - search_right mm st i (rd mm (st + i)) less)) m)
           st (k + cnt) =
         (seg m (st + k) cnt).foldl (fun acc v => ins_ub less v acc) (seg m st k) ∧
       (∀ q, q < st ∨ st + k + cnt ≤ q →
         rd ((List.range' k cnt).foldl (fun mm i =>
           insert_left mm (st + i) (i - search_right mm st i (rd mm (st + i)) less)) m) q =
           rd m q)) := by
  intro cnt
  induction cnt with
  | zero =>
      intro m k hb hs
      refine ⟨rfl, ?_, fun q _ => rfl⟩
      simp [seg]
  | succ cnt ih =>
      intro m k hb hs
      have hrange : List.range' k (cnt + 1) = k :: List.range' (k + 1) cnt :=
        List.range'_succ k cnt 1
      obtain ⟨hlen1, hseg1, hun1⟩ := binary_insert_step_spec h m st k (by omega) hs
      set m1 := insert_left m (st + k) (k - search_right m st k (rd m (st + k)) less)
        with hm1def
      have hrest : seg m1 (st + (k + 1)) cnt = seg m (st + (k + 1)) cnt := by
        apply seg_eq_of_rd (by omega) (by omega)
        intro j hj
        exact hun1 _ (by omega)
      have hsort1 : sortedLe less (seg m1 st (k + 1)) := by
        rw [hseg1]
        exact ins_ub_sorted h _ hs
      obtain ⟨hlen2, hseg2, hun2⟩ := ih m1 (k + 1) (by omega) hsort1
      have hfold : (List.range' k (cnt + 1)).foldl
          (fun mm i =>
            insert_left mm (st + i) (i - search_right mm st i (rd mm (st + i)) less)) m =
          (List.range' (k + 1) cnt).foldl
            (fun mm i =>
              insert_left mm (st + i) (i - search_right mm st i (rd mm (st + i)) less)) m1 := by
        rw [hrange]
        rfl
      refine ⟨?_, ?_, ?_⟩
      · rw [hfold, hlen2, hlen1]
      · rw [hfold, show k + (cnt + 1) = (k + 1) + cnt by omega, hseg2, hseg1, hrest]
        have hsegcons : seg m (st + k) (cnt + 1) = rd m (st + k) :: seg m (st + k + 1) cnt :=
          seg_cons (by omega)
        rw [hsegcons]
        simp only [List.foldl_cons]
        rw [show st + (k + 1) = st + k + 1 by omega]
      · intro q hq
        rw [hfold, hun2 q (by omega), hun1 q (by omega)]

/-- Glue: a sorted permutation of the first u elements, followed by the
untouched ascending remainder all of whose elements strictly exceed the
original first u elements, is ascending as a whole. -/
theorem buffer_region_sorted {less : α → α → Bool} (h : IsSWO less) (m m' : Mem α)
    (start len u : Nat) (hu : u ≤ len) (hlen : start + len ≤ m.length)
    (hlen' : m'.length = m.length)
    (hpfx_sorted : sortedLe less (seg m' start u))
    (hpfx_perm : (seg m' start u).Perm (seg m start u))
    (huntouch : ∀ q, start + u ≤ q → rd m' q = rd m q)
    (hsuf : sortedLe less (seg m (start + u) (len - u)))
    (hbelow : ∀ x ∈ seg m start u, ∀ y ∈ seg m (start + u) (len - u), less x y = true) :
    sortedLe less (seg m' start len) := by
  have hsplit : seg m' start len = seg m' start u ++ seg m' (start + u) (len - u) := by
    have := seg_split m' start u (len - u)
    rwa [show u + (len - u) = len by omega] at this
  have hrest : seg m' (start + u) (len - u) = seg m (start + u) (len - u) := by
    apply seg_eq_of_rd (by omega) (by omega)
    intro j hj
    exact huntouch _ (by omega)
  rw [hsplit, hrest]
  apply List.chain'_append.mpr
  refine ⟨hpfx_sorted, hsuf, ?_⟩
  intro x hx y hy
  have hxm : x ∈ seg m start u := hpfx_perm.mem_iff.mp (List.mem_of_mem_getLast? hx)
  have hym : y ∈ seg m (start + u) (len - u) := List.mem_of_mem_head? hy
  exact h.asymm x y (hbelow x hxm y hym)

/-- Claim C6, counterexample: the buffer [5, 1, 2, 3] with unsorted = 1
satisfies the stated precondition (pairwise distinct elements, ascending
beyond the first unsorted position), yet Buffer sort leaves the buffer not
ascending and leaves the unsorted field at 1, not 0. -/
theorem buffer_sort_counterexample :
    ((seg ([5, 1, 2, 3] : Mem Nat) 0 4).Pairwise
        (fun x y => decide (x < y) = true ∨ decide (y < x) = true) ∧
     sortedLe (fun a b : Nat => decide (a < b))
        (seg ([5, 1, 2, 3] : Mem Nat) (0 + 1) (4 - 1))) ∧
    (Buffer.sort ⟨0, 4, 1⟩ ([5, 1, 2, 3] : Mem Nat) (fun a b => decide (a < b))).1.unsorted ≠ 0 ∧
    ¬ sortedLe (fun a b : Nat => decide (a < b))
        (seg (Buffer.sort ⟨0, 4, 1⟩ ([5, 1, 2, 3] : Mem Nat)
          (fun a b => decide (a < b))).2 0 4) := by
  refine ⟨⟨?_, ?_⟩, ?_, ?_⟩
  · decide
  · show List.Chain' _ _
    rw [show seg ([5, 1, 2, 3] : Mem Nat) (0 + 1) (4 - 1) = [1, 2, 3] from rfl]
    simp [List.chain'_cons, List.chain'_singleton]
  · decide
  · show ¬ List.Chain' _ _
    rw [show (Buffer.sort ⟨0, 4, 1⟩ ([5, 1, 2, 3] : Mem Nat)
        (fun a b : Nat => decide (a < b))).2 = [5, 1, 2, 3] from rfl]
    rw [show seg ([5, 1, 2, 3] : Mem Nat) 0 4 = [5, 1, 2, 3] from rfl]
    simp [List.chain'_cons, List.chain'_singleton]

set_option maxRecDepth 8000

/-- Claim C6, amended: for a buffer state whose elements are pairwise distinct
under less, ascending beyond the first unsorted positions, and in which every
one of the first unsorted elements is less than every later buffer element,
Buffer sort restores the entire buffer region to ascending order (insertion
sorting the first unsorted elements, with the binary insertion variant above
128), and it leaves the buffer fields, in particular unsorted, unchanged
rather than resetting unsorted to 0. -/
theorem buffer_sort_correct (less : α → α → Bool) (h : IsSWO less) (b : Buffer)
    (m : Mem α) (hlen : b.start + b.len ≤ m.length) (hu : b.unsorted ≤ b.len)
    (hdis : (seg m b.start b.len).Pairwise (fun x y => less x y = true ∨ less y x = true))
    (hsuf : sortedLe less (seg m (b.start + b.unsorted) (b.len - b.unsorted)))
    (hbelow : ∀ x ∈ seg m b.start b.unsorted,
      ∀ y ∈ seg m (b.start + b.unsorted) (b.len - b.unsorted), less x y = true) :
    (Buffer.sort b m less).1 = b ∧
    sortedLe less (seg (Buffer.sort b m less).2 b.start b.len) := by
  rcases Nat.eq_zero_or_pos b.unsorted with hu0 | hu1
  · have hres : Buffer.sort b m less = (b, insert_sort m b.start 1 b.unsorted less) := by
      rw [Buffer.sort, if_neg (by rw [hu0]; simp [MIN_BINARY_INSERT])]
    have hins : insert_sort m b.start 1 b.unsorted less = m := by
      rw [insert_sort, hu0]
      rfl
    refine ⟨by rw [hres], ?_⟩
    rw [hres]
    simp only
    rw [hins]
    have := hsuf
    rw [hu0] at this
    simpa using this
  · by_cases hbig : MIN_BINARY_INSERT < b.unsorted
    · -- binary insertion path
      have hres : Buffer.sort b m less =
          (b, (List.range' MIN_BINARY_INSERT (b.unsorted - MIN_BINARY_INSERT)).foldl
            (fun mm i =>
              insert_left mm (b.start + i)
                (i - search_right mm b.start i (rd mm (b.start + i)) less))
            (insert_sort m b.start 1 MIN_BINARY_INSERT less)) := by
        rw [Buffer.sort, if_pos hbig]
      obtain ⟨hlen1, hseg1, hun1⟩ :=
        insert_sort_fold_spec h (MIN_BINARY_INSERT - 1) m b.start 1
          (by simp only [MIN_BINARY_INSERT] at hbig ⊢; omega)
          (by
            rw [seg_one (by omega)]
            exact List.chain'_singleton _)
      have hins_def : insert_sort m b.start 1 MIN_BINARY_INSERT less =
          (List.range' 1 (MIN_BINARY_INSERT - 1)).foldl
            (fun mm j => insert_sort_step mm b.start j less) m := rfl
      set m1 := insert_sort m b.start 1 MIN_BINARY_INSERT less with hm1def
      rw [← hins_def] at hlen1 hseg1 hun1
      rw [show 1 + (MIN_BINARY_INSERT - 1) = MIN_BINARY_INSERT from by
        simp [MIN_BINARY_INSERT]] at hseg1
      rw [show b.start + 1 + (MIN_BINARY_INSERT - 1) = b.start + MIN_BINARY_INSERT from by
        simp [MIN_BINARY_INSERT]] at hun1
      have hsort1 : sortedLe less (seg m1 b.start MIN_BINARY_INSERT) := by
        rw [hseg1]
        apply foldl_ins_ub_sorted h
        rw [seg_one (by omega)]
        exact List.chain'_singleton _
      obtain ⟨hlen2, hseg2, hun2⟩ :=
        binary_insert_fold_spec h b.start (b.unsorted - MIN_BINARY_INSERT) m1
          MIN_BINARY_INSERT (by simp only [MIN_BINARY_INSERT] at hbig ⊢; omega) hsort1
      rw [show MIN_BINARY_INSERT + (b.unsorted - MIN_BINARY_INSERT) = b.unsorted from by
        simp only [MIN_BINARY_INSERT] at hbig ⊢; omega] at hseg2
      rw [show b.start + MIN_BINARY_INSERT + (b.unsorted - MIN_BINARY_INSERT) =
          b.start + b.unsorted from by
        simp only [MIN_BINARY_INSERT] at hbig ⊢; omega] at hun2
      have hperm1 : (seg m1 b.start MIN_BINARY_INSERT).Perm
          (seg m b.start MIN_BINARY_INSERT) := by
        rw [hseg1]
        refine (foldl_ins_ub_perm less _ _).trans ?_
        have := seg_split m b.start 1 (MIN_BINARY_INSERT - 1)
        rw [show 1 + (MIN_BINARY_INSERT - 1) = MIN_BINARY_INSERT from by
          simp [MIN_BINARY_INSERT]] at this
        rw [this]
      have hrest1 : seg m1 (b.start + MIN_BINARY_INSERT)
          (b.unsorted - MIN_BINARY_INSERT) =
          seg m (b.start + MIN_BINARY_INSERT) (b.unsorted - MIN_BINARY_INSERT) := by
        apply seg_eq_of_rd
          (by simp only [MIN_BINARY_INSERT] at hbig ⊢; omega)
          (by simp only [MIN_BINARY_INSERT] at hbig ⊢; omega)
        intro j hj
        exact hun1 _ (by omega)
      refine ⟨by rw [hres], ?_⟩
      rw [hres]
      simp only
      apply buffer_region_sorted h m _ b.start b.len b.unsorted hu hlen
        (by rw [hlen2, hlen1]) _ _ _ hsuf hbelow
      · rw [hseg2]
        apply foldl_ins_ub_sorted h _ _ hsort1
      · rw [hseg2, hrest1]
        refine (foldl_ins_ub_perm less _ _).trans ?_
        have hsplitu := seg_split m b.start MIN_BINARY_INSERT
          (b.unsorted - MIN_BINARY_INSERT)
        rw [show MIN_BINARY_INSERT + (b.unsorted - MIN_BINARY_INSERT) = b.unsorted from by
          simp only [MIN_BINARY_INSERT] at hbig ⊢; omega] at hsplitu
        rw [hsplitu]
        exact hperm1.append_right _
      · intro q hq
        rw [hun2 q (by omega), hun1 q (by omega)]
    · -- plain insertion sort path
      have hres : Buffer.sort b m less = (b, insert_sort m b.start 1 b.unsorted less) := by
        rw [Buffer.sort, if_neg hbig]
      obtain ⟨hlen1, hseg1, hun1⟩ :=
        insert_sort_fold_spec h (b.unsorted - 1) m b.start 1 (by omega)
          (by
            rw [seg_one (by omega)]
            exact List.chain'_singleton _)
      have hins_def : insert_sort m b.start 1 b.unsorted less =
          (List.range' 1 (b.unsorted - 1)).foldl
            (fun mm j => insert_sort_step mm b.start j less) m := rfl
      rw [← hins_def] at hlen1 hseg1 hun1
      rw [show 1 + (b.unsorted - 1) = b.unsorted by omega] at hseg1
      rw [show b.start + 1 + (b.unsorted - 1) = b.start + b.unsorted by omega] at hun1
      refine ⟨by rw [hres], ?_⟩
      rw [hres]
      simp only
      apply buffer_region_sorted h m _ b.start b.len b.unsorted hu hlen hlen1
        _ _ _ hsuf hbelow
      · rw [hseg1]
        apply foldl_ins_ub_sorted h
        rw [seg_one (by omega)]
        exact List.chain'_singleton _
      · rw [hseg1]
        refine (foldl_ins_ub_perm less _ _).trans ?_
        have := seg_split m b.start 1 (b.unsorted - 1)
        rw [show 1 + (b.unsorted - 1) = b.unsorted by omega] at this
        rw [this]
      · intro q hq
        exact hun1 q (by omega)

/-- Claim C6, witness: the buffer [2, 1, 3] with unsorted = 2 and the strict
order on Nat; both prefix elements are below the suffix element, and Buffer
sort produces the ascending buffer [1, 2, 3] with unsorted still 2. -/
theorem buffer_sort_correct_witness :
    (Buffer.sort ⟨0, 3, 2⟩ ([2, 1, 3] : Mem Nat) (fun a b => decide (a < b))).1 =
      (⟨0, 3, 2⟩ : Buffer) ∧
    sortedLe (fun a b : Nat => decide (a < b))
      (seg (Buffer.sort ⟨0, 3, 2⟩ ([2, 1, 3] : Mem Nat)
        (fun a b => decide (a < b))).2 0 3) :=
  buffer_sort_correct (fun a b : Nat => decide (a < b)) nat_blt_swo ⟨0, 3, 2⟩
    ([2, 1, 3] : Mem Nat) (by decide) (by decide)
    (by decide)
    (by
      show List.Chain' _ _
      rw [show seg ([2, 1, 3] : Mem Nat) (0 + 2) (3 - 2) = [3] from rfl]
      exact List.chain'_singleton 3)
    (by
      intro x hx y hy
      rw [show seg ([2, 1, 3] : Mem Nat) 0 2 = [2, 1] from rfl] at hx
      rw [show seg ([2, 1, 3] : Mem Nat) (0 + 2) (3 - 2) = [3] from rfl] at hy
      rcases List.mem_cons.mp hx with rfl | hx2
      · rcases List.mem_singleton.mp hy with rfl
        decide
      · rcases List.mem_singleton.mp hx2 with rfl
        rcases List.mem_singleton.mp hy with rfl
        decide)

/-! Arithmetic facts about the block length and the ideal key count. -/

theorem one_le_ilog2 {n : Nat} (h : 2 ≤ n) : 1 ≤ ilog2 n := by
  obtain ⟨k, rfl⟩ : ∃ k, n = k + 2 := ⟨n - 2, by omega⟩
  simp only [ilog2, ilog2_loop, if_pos h]
  omega

theorem two_le_array_block_length {n : Nat} (h : 2 ≤ n) : 2 ≤ array_block_length n := by
  have h1 : 1 ≤ (ilog2 n + 1) / 2 := by
    have := one_le_ilog2 h
    omega
  have hk : 2 ≤ 1 <<< ((ilog2 n + 1) / 2) := by
    calc 2 = 1 <<< 1 := rfl
    _ ≤ 1 <<< ((ilog2 n + 1) / 2) := by
        simp only [Nat.shiftLeft_eq, Nat.one_mul]
        exact Nat.pow_le_pow_right (by omega) h1
  unfold array_block_length
  have hmono : ∀ k j : Nat, k ≤ k <<< j := by
    intro k j
    simp only [Nat.shiftLeft_eq]
    calc k = k * 1 := by omega
    _ ≤ k * 2 ^ j := Nat.mul_le_mul_left k (Nat.one_le_two_pow)
  exact le_trans hk (hmono _ _)

/-- Claim C5, counterexample: at n = 4096 the ideal buffer size the orchestrator
computes is 126, while the ceiling division formula of the claim gives 127, so
the claim as stated (with ceiling division) fails. -/
theorem ideal_keys_ceil_counterexample :
    ideal_keys 4096 ≠
      array_block_length (4096 + 1) +
        ((4096 + 1) + array_block_length (4096 + 1) - 1) / array_block_length (4096 + 1) - 2 := by
  decide

/-- Claim C5, amended: the ideal buffer size computed by the orchestrator equals
block_len + (n + 1) / block_len - 2 with floor division; it agrees with the
ceiling division form of the claim exactly when block_len divides n + 1, and is
one less otherwise. -/
theorem ideal_keys_floor (n : Nat) (h : 8 ≤ n) :
    ideal_keys n = array_block_length (n + 1) + (n + 1) / array_block_length (n + 1) - 2 ∧
    (array_block_length (n + 1) ∣ (n + 1) →
      ideal_keys n =
        array_block_length (n + 1) +
          ((n + 1) + array_block_length (n + 1) - 1) / array_block_length (n + 1) - 2) ∧
    (¬ array_block_length (n + 1) ∣ (n + 1) →
      ideal_keys n + 1 =
        array_block_length (n + 1) +
          ((n + 1) + array_block_length (n + 1) - 1) / array_block_length (n + 1) - 2) := by
  have hb : 2 ≤ array_block_length (n + 1) := two_le_array_block_length (by omega)
  set b := array_block_length (n + 1) with hbdef
  have hb0 : 0 < b := by omega
  have hqr := Nat.div_add_mod (n + 1) b
  set q := (n + 1) / b with hqdef
  set r := (n + 1) % b with hrdef
  have hr : r < b := Nat.mod_lt _ hb0
  have hdvd : b ∣ (n + 1) ↔ r = 0 := by
    rw [hrdef]
    exact Nat.dvd_iff_mod_eq_zero
  set t := b * q with htdef
  refine ⟨rfl, ?_, ?_⟩
  · intro hd
    have hr0 : r = 0 := hdvd.mp hd
    have he : (n + 1) + b - 1 = b * q + (b - 1) := by omega
    have hceil : ((n + 1) + b - 1) / b = q := by
      rw [he, Nat.mul_add_div hb0, Nat.div_eq_of_lt (by omega), Nat.add_zero]
    rw [hceil]
    rfl
  · intro hd
    have hr1 : 1 ≤ r := by
      rcases Nat.eq_zero_or_pos r with h0 | h1
      · exact absurd (hdvd.mpr h0) hd
      · exact h1
    have he : (n + 1) + b - 1 = b * (q + 1) + (r - 1) := by
      have : b * (q + 1) = t + b := by rw [htdef, Nat.mul_add, Nat.mul_one]
      omega
    have hceil : ((n + 1) + b - 1) / b = q + 1 := by
      rw [he, Nat.mul_add_div hb0, Nat.div_eq_of_lt (by omega), Nat.add_zero]
    have hq : ideal_keys n = b + q - 2 := rfl
    rw [hceil, hq]
    clear_value t r q b
    omega

/-- Claim C5, witness for the amended theorem at n = 4095, where the chosen
block length 64 divides 4096 so the floor and ceiling forms agree. -/
theorem ideal_keys_floor_witness :
    ideal_keys 4095 =
      array_block_length (4095 + 1) +
        ((4095 + 1) + array_block_length (4095 + 1) - 1) / array_block_length (4095 + 1) - 2 :=
  (ideal_keys_floor 4095 (by decide)).2.1 (by decide)

end Dustsort
